import Mathlib

/-!
Shallow embedding of the core components of the `preciouss` personal-finance
reconciliation system, together with proofs of its specified properties.

Conventions used throughout the embedding:
* Python `Decimal` values are modelled as exact rationals (`ℚ`); the one place
  the source divides two decimals (`scale = total_payment / listed_total`) is
  modelled as exact rational division (Python carries 28 significant digits
  there).  Every property proved below is independent of the precision of that
  intermediate quotient.
* Python `datetime` values are modelled as integer epoch seconds; a `timedelta`
  of `days=3` is the integer `3 * 86400`.
* Python `None`-able strings are `Option String`; Python truthiness (where both
  `None` and `""` are falsy) is `strTruthy`.
* The open `metadata` dict of a transaction is modelled by its three fields the
  core reads: the `wechathk_foreign_amount` / `wechathk_foreign_currency` pair
  (absent-or-empty collapsed to `none`) and the `link` tag, which is kept
  outside the record as an explicit state `ℕ → Option String` from transaction
  index to assigned link, because the source mutates it in place.
-/

namespace Preciouss

/-- Python truthiness of an optional string: `None` and `""` are falsy. -/
def strTruthy : Option String → Bool
  | none => false
  | some s => !(s == "")

/-- The shared intermediate transaction record (`preciouss.importers.base.Transaction`). -/
structure Transaction where
  date : Int := 0
  amount : ℚ := 0
  currency : String := ""
  payee : String := ""
  narration : String := ""
  source_account : String := ""
  payment_method : Option String := none
  reference_id : Option String := none
  counterpart_ref : Option String := none
  raw_category : Option String := none
  tx_type : Option String := none
  counter_account : Option String := none
  foreign_amount : Option ℚ := none
  foreign_currency : Option String := none
deriving DecidableEq, Inhabited

/-- Default transaction record, used as the out-of-range value of list indexing. -/
def defaultTx : Transaction := {}

/-- Indexing into a transaction list (all uses are in range). -/
def nthT (txs : List Transaction) (i : ℕ) : Transaction := txs.getD i defaultTx

/- ===================== 4.6 Proportional Allocator ===================== -/

/-- One itemized line item of a composite receipt (an entry of
`metadata["aldi_items"]` / `"costco_items"` / `"jd_items"`): `name`, `num`,
`price` (a decimal string in the source, an exact rational here), `category`. -/
structure Item where
  name : String := ""
  num : Int := 1
  price : ℚ := 0
  category : String := ""
deriving DecidableEq, Inhabited

/-- Listed subtotal of one item: `Decimal(item["price"]) * int(item["num"])`. -/
def itemSubtotal (it : Item) : ℚ := it.price * it.num

/-- Sum of listed subtotals of the whole item list (`listed_total` in
`group_items_by_category`). -/
def listedTotal (items : List Item) : ℚ := (items.map itemSubtotal).sum

/-- Round a rational to the nearest integer, halves to the even neighbour:
the semantics of `Decimal.quantize` with the default `ROUND_HALF_EVEN`. -/
def roundHalfEvenInt (q : ℚ) : Int :=
  let f : Int := ⌊q⌋
  let r : ℚ := q - f
  if r < 1/2 then f
  else if 1/2 < r then f + 1
  else if f % 2 = 0 then f else f + 1

/-- `(x).quantize(Decimal("0.01"))`: banker's rounding to two decimal places. -/
def quantize2 (q : ℚ) : ℚ := (roundHalfEvenInt (q * 100) : ℚ) / 100

/-- Insertion-order-preserving accumulation into `by_category`: if the
category is already present its total/items are extended, otherwise a new
entry is appended (Python dict insertion order). -/
def upsertCategory (acc : List (String × ℚ × List Item)) (cat : String) (eff : ℚ)
    (it : Item) : List (String × ℚ × List Item) :=
  match acc with
  | [] => [(cat, eff, [it])]
  | (c, t, its) :: rest =>
    if c = cat then (c, t + eff, its ++ [it]) :: rest
    else (c, t, its) :: upsertCategory rest cat eff it

/-- The `by_category` accumulation loop of `group_items_by_category`:
`effective = (listed * scale).quantize(Decimal("0.01"))`, grouped per category. -/
def groupByCategory (items : List Item) (scale : ℚ) : List (String × ℚ × List Item) :=
  items.foldl (fun acc it =>
    upsertCategory acc it.category (quantize2 (itemSubtotal it * scale)) it) []

/-- Python string comparison on code-point lists: lexicographic by code point
(the order Python `sorted` uses for `str`). -/
def charsLe : List Char → List Char → Bool
  | [], _ => true
  | _ :: _, [] => false
  | c :: cs, d :: ds =>
    if c.toNat < d.toNat then true
    else if d.toNat < c.toNat then false
    else charsLe cs ds

/-- `sorted(...)` over the `(acct, total, its)` tuples.  Python compares the
tuples lexicographically; since the accounts are dict keys and hence pairwise
distinct, this is exactly a stable sort by account name (`sorted` is stable,
as is `insertionSort`). -/
def sortByAccount (l : List (String × ℚ × List Item)) : List (String × ℚ × List Item) :=
  List.insertionSort (fun a b => charsLe a.1.data b.1.data = true) l

/-- Tail of Python `max(range(n), key=...)`: scan the remaining values,
replacing the current best index only on a strictly larger value, so the
first of several equal maxima wins. -/
def argmaxAux : List ℚ → ℕ → ℕ → ℚ → ℕ
  | [], _, best, _ => best
  | v :: rest, i, best, bv =>
    if bv < v then argmaxAux rest (i + 1) i v else argmaxAux rest (i + 1) best bv

/-- Python `max(range(len(vals)), key=lambda i: vals[i])` (first maximum wins). -/
def firstArgmax (vals : List ℚ) : ℕ :=
  match vals with
  | [] => 0
  | v :: rest => argmaxAux rest 1 0 v

/-- Per-entry category total, the `result[i][1]` component. -/
def entryTotal (e : String × ℚ × List Item) : ℚ := e.2.1

/-- Add `diff` to the total of the entry at position `idx` (the
`result[max_idx] = (acct, total + rounding_diff, its)` update). -/
def bumpAt (l : List (String × ℚ × List Item)) (idx : ℕ) (diff : ℚ) :
    List (String × ℚ × List Item) :=
  match l.get? idx with
  | none => l
  | some (a, t, its) => l.set idx (a, t + diff, its)

/-- The grouped-and-sorted category list before the residual correction: the
`result` variable of `group_items_by_category`, with
`scale = total_payment / listed_total`. -/
def preGroups (items : List Item) (total_payment : ℚ) : List (String × ℚ × List Item) :=
  sortByAccount (groupByCategory items (total_payment / listedTotal items))

/-- Shallow embedding of `preciouss.ledger.writer.group_items_by_category`:
proportional allocation of `total_payment` over the listed item subtotals,
grouped by category, sorted by account name, with the rounding residual added
to the (first) largest category. -/
def group_items_by_category (items : List Item) (total_payment : ℚ) :
    List (String × ℚ × List Item) :=
  if listedTotal items = 0 then []
  else
    let result := preGroups items total_payment
    let rounding_diff := total_payment - (result.map entryTotal).sum
    if rounding_diff ≠ 0 ∧ result ≠ [] then
      bumpAt result (firstArgmax (result.map entryTotal)) rounding_diff
    else result

/- ===================== 4.3 Deduplicator ===================== -/

/-- Loop body of `preciouss.cli._deduplicate`: a transaction whose
`reference_id` is `None` is always kept; otherwise it is kept only when its
`reference_id` has not been seen yet, in which case the id is recorded. -/
def dedupGo (seen : List String) : List Transaction → List Transaction
  | [] => []
  | tx :: rest =>
    match tx.reference_id with
    | none => tx :: dedupGo seen rest
    | some r => if r ∈ seen then dedupGo seen rest else tx :: dedupGo (r :: seen) rest

/-- Shallow embedding of `preciouss.cli._deduplicate`. -/
def deduplicate (txs : List Transaction) : List Transaction := dedupGo [] txs

/-- Positional keep-predicate of the deduplicator: index `i` survives iff its
transaction has no `reference_id` (Python `is None`) or no strictly earlier
index carries the same `reference_id`. -/
def keptB (txs : List Transaction) (i : ℕ) : Bool :=
  match (nthT txs i).reference_id with
  | none => true
  | some r => decide (∀ j < i, (nthT txs j).reference_id ≠ some r)

/-- Indices of the transactions the deduplicator keeps, in order. -/
def keptIndices (txs : List Transaction) : List ℕ :=
  (List.range txs.length).filter (keptB txs)

/- ===================== Clearing matcher amount test ===================== -/

/-- One direction of the cross-currency test in `_amounts_match`: does `t1`
carry foreign-amount metadata equal to `t2`'s native amount and currency?
(`metadata["wechathk_foreign_amount"]` / `"wechathk_foreign_currency"`;
Python-falsy values are modelled as `none`, and the currency string is
additionally required to be non-empty, mirroring `if fa and fc`). -/
def crossCheck (t1 t2 : Transaction) : Bool :=
  match t1.foreign_amount, t1.foreign_currency with
  | some fa, some fc => !(fc == "") && fc == t2.currency && decide (fa = |t2.amount|)
  | _, _ => false

/-- Shallow embedding of `preciouss.importers.base._amounts_match`: equal
currency with equal absolute amounts, or cross-currency equivalence via the
foreign-amount metadata of either side. -/
def amountsMatch (a b : Transaction) : Bool :=
  if a.currency == b.currency && decide (|a.amount| = |b.amount|) then true
  else crossCheck a b || crossCheck b a

/- ===================== 4.4 Matching Engine ===================== -/

/-- Python substring containment `kw in s` on character lists. -/
def charsContains (kw : List Char) : List Char → Bool
  | [] => kw.isPrefixOf []
  | c :: rest => kw.isPrefixOf (c :: rest) || charsContains kw rest

/-- Configuration (and one external collaborator) of `MatchingEngine`:
`date_tolerance` in seconds (`timedelta(days=date_tolerance_days)`),
`fuzzy_payee_threshold`, and the similarity scorer
`rapidfuzz.fuzz.token_sort_ratio(a, b) / 100.0`, which is a third-party
function and therefore taken as an opaque parameter of the embedding. -/
structure MatchConfig where
  dateTolerance : Int
  fuzzyThreshold : ℚ
  sim : String → String → ℚ

/-- One matched pair (`preciouss.matching.engine.MatchResult`). -/
structure MatchResult where
  tx_a : Transaction
  tx_b : Transaction
  match_type : String
  confidence : ℚ
deriving DecidableEq, Inhabited

/-- Engine output (`preciouss.matching.engine.MatchingOutput`). -/
structure MatchingOutput where
  matched : List MatchResult
  unmatched : List Transaction
deriving DecidableEq, Inhabited

/-- Append index `i` under `key` in the reference index, preserving Python
dict insertion order (`ref_index.setdefault(key, []).append(i)`). -/
def refIndexInsert (idx : List (String × List ℕ)) (key : String) (i : ℕ) :
    List (String × List ℕ) :=
  match idx with
  | [] => [(key, [i])]
  | (k, l) :: rest =>
    if k = key then (k, l ++ [i]) :: rest
    else (k, l) :: refIndexInsert rest key i

/-- Per-transaction step of building `ref_index`: append `i` under its
Python-truthy `reference_id`, then under its Python-truthy `counterpart_ref`. -/
def refIndexStep (txs : List Transaction) (acc : List (String × List ℕ)) (i : ℕ) :
    List (String × List ℕ) :=
  let acc1 := match (nthT txs i).reference_id with
    | some r => if r = "" then acc else refIndexInsert acc r i
    | none => acc
  match (nthT txs i).counterpart_ref with
  | some r => if r = "" then acc1 else refIndexInsert acc1 r i
  | none => acc1

/-- The `ref_index` built by Phase 1: every Python-truthy `reference_id` and
`counterpart_ref` value maps to the list of indices carrying it. -/
def refIndex (txs : List Transaction) : List (String × List ℕ) :=
  (List.range txs.length).foldl (refIndexStep txs) []

/-- Inner `for j in range(1, len(indices))` loop of Phase 1: the fixed left
index `i0 = indices[0]` is paired with the first unconsumed right index whose
`source_account` differs; a successful pair consumes both sides (and, since
`i0` is then consumed, ends the key's contribution). -/
def phase1KeyGo (txs : List Transaction) (i0 : ℕ) :
    List ℕ → List MatchResult × Finset ℕ → List MatchResult × Finset ℕ
  | [], st => st
  | j :: rest, (ms, matched) =>
    if i0 ∈ matched ∨ j ∈ matched then phase1KeyGo txs i0 rest (ms, matched)
    else if (nthT txs i0).source_account = (nthT txs j).source_account then
      phase1KeyGo txs i0 rest (ms, matched)
    else
      phase1KeyGo txs i0 rest
        (ms ++ [⟨nthT txs i0, nthT txs j, "reference", 1⟩],
         insert i0 (insert j matched))

/-- Per-key step of Phase 1 (`if len(indices) < 2: continue` plus the inner loop). -/
def phase1Key (txs : List Transaction) (st : List MatchResult × Finset ℕ)
    (entry : String × List ℕ) : List MatchResult × Finset ℕ :=
  match entry.2 with
  | [] => st
  | [_] => st
  | i0 :: rest => phase1KeyGo txs i0 rest st

/-- Shallow embedding of `MatchingEngine._phase_reference`: reference-id exact
matching.  Returns the matched pairs and the remaining (unconsumed) records. -/
def phase_reference (txs : List Transaction) : List MatchResult × List Transaction :=
  let st := (refIndex txs).foldl (phase1Key txs) ([], ∅)
  (st.1, ((List.range txs.length).filter (fun i => decide (i ∉ st.2))).map (nthT txs))

/-- Platform keyword list of Phase 2 (`platform_keywords` in `_phase_intermediary`). -/
def platformKeywords : List String :=
  ["支付宝", "财付通", "微信", "alipay", "wechat", "tenpay"]

/-- Eligibility of a bank record `bi` for a platform record `pi` in Phase 2:
equal absolute amount, equal currency, dates within tolerance, and the bank
side's lowered payee+narration text mentions a payment platform. -/
def phase2Cond (cfg : MatchConfig) (txs : List Transaction) (pi bi : ℕ) : Bool :=
  let p := nthT txs pi
  let b := nthT txs bi
  decide (|p.amount| = |b.amount|) && p.currency == b.currency &&
  decide (|p.date - b.date| ≤ cfg.dateTolerance) &&
  platformKeywords.any (fun kw =>
    charsContains kw.data (b.payee ++ " " ++ b.narration).toLower.data)

/-- Outer loop of Phase 2 over the platform records: each unconsumed platform
index is paired with the first unconsumed eligible bank index (no backtracking). -/
def phase2Go (cfg : MatchConfig) (txs : List Transaction) (bank : List ℕ) :
    List ℕ → List MatchResult × Finset ℕ → List MatchResult × Finset ℕ
  | [], st => st
  | pi :: rest, (ms, matched) =>
    if pi ∈ matched then phase2Go cfg txs bank rest (ms, matched)
    else
      match bank.find? (fun bi => decide (bi ∉ matched) && phase2Cond cfg txs pi bi) with
      | some bi => phase2Go cfg txs bank rest
          (ms ++ [⟨nthT txs pi, nthT txs bi, "intermediary", 9/10⟩],
           insert pi (insert bi matched))
      | none => phase2Go cfg txs bank rest (ms, matched)

/-- Shallow embedding of `MatchingEngine._phase_intermediary`: the records are
partitioned into platform (Python-truthy `payment_method`) and bank (the rest). -/
def phase_intermediary (cfg : MatchConfig) (txs : List Transaction) :
    List MatchResult × List Transaction :=
  let platform := (List.range txs.length).filter (fun i => strTruthy (nthT txs i).payment_method)
  let bank := (List.range txs.length).filter (fun i => !strTruthy (nthT txs i).payment_method)
  let st := phase2Go cfg txs bank platform ([], ∅)
  (st.1, ((List.range txs.length).filter (fun i => decide (i ∉ st.2))).map (nthT txs))

/-- Similarity score of Phase 3 between records `i` and `j`:
`fuzz.token_sort_ratio(payee_a, payee_b) / 100.0` on the concatenated
payee+narration texts. -/
def phase3Sim (cfg : MatchConfig) (txs : List Transaction) (i j : ℕ) : ℚ :=
  cfg.sim ((nthT txs i).payee ++ " " ++ (nthT txs i).narration)
    ((nthT txs j).payee ++ " " ++ (nthT txs j).narration)

/-- Eligibility test of Phase 3: different sources, exactly equal absolute
amount and currency, dates within tolerance, similarity at or above threshold. -/
def phase3Cond (cfg : MatchConfig) (txs : List Transaction) (i j : ℕ) : Bool :=
  let a := nthT txs i
  let b := nthT txs j
  !(a.source_account == b.source_account) &&
  decide (|a.amount| = |b.amount|) && a.currency == b.currency &&
  decide (|a.date - b.date| ≤ cfg.dateTolerance) &&
  decide (cfg.fuzzyThreshold ≤ phase3Sim cfg txs i j)

/-- Outer loop of Phase 3: each unconsumed `i` is paired with the first
unconsumed later `j` passing `phase3Cond`, with the similarity as confidence. -/
def phase3Go (cfg : MatchConfig) (txs : List Transaction) (n : ℕ) :
    List ℕ → List MatchResult × Finset ℕ → List MatchResult × Finset ℕ
  | [], st => st
  | i :: rest, (ms, matched) =>
    if i ∈ matched then phase3Go cfg txs n rest (ms, matched)
    else
      match (List.range' (i + 1) (n - (i + 1))).find?
          (fun j => decide (j ∉ matched) && phase3Cond cfg txs i j) with
      | some j => phase3Go cfg txs n rest
          (ms ++ [⟨nthT txs i, nthT txs j, "fuzzy", phase3Sim cfg txs i j⟩],
           insert i (insert j matched))
      | none => phase3Go cfg txs n rest (ms, matched)

/-- Shallow embedding of `MatchingEngine._phase_fuzzy`. -/
def phase_fuzzy (cfg : MatchConfig) (txs : List Transaction) :
    List MatchResult × List Transaction :=
  let n := txs.length
  let st := phase3Go cfg txs n (List.range n) ([], ∅)
  (st.1, ((List.range n).filter (fun i => decide (i ∉ st.2))).map (nthT txs))

/-- Shallow embedding of `MatchingEngine.match`: the three phases chained on
the shrinking remainder list. -/
def engineMatch (cfg : MatchConfig) (txs : List Transaction) : MatchingOutput :=
  let p1 := phase_reference txs
  let p2 := phase_intermediary cfg p1.2
  let p3 := phase_fuzzy cfg p2.2
  ⟨p1.1 ++ p2.1 ++ p3.1, p3.2⟩

/-- Both members of every matched pair, in order (used to account for which
transactions the engine consumed). -/
def pairElems (ms : List MatchResult) : List Transaction :=
  ms.foldr (fun m acc => m.tx_a :: m.tx_b :: acc) []

/- ===================== 4.1 Payment Account Resolver ===================== -/

/-- Python `str.strip()` on a character list. -/
def trimChars (l : List Char) : List Char :=
  ((l.dropWhile Char.isWhitespace).reverse.dropWhile Char.isWhitespace).reverse

/-- Split at the first occurrence of `c` (Python `s.split(c, 1)` when `c ∈ s`). -/
def splitFirstChar (c : Char) : List Char → Option (List Char × List Char)
  | [] => none
  | x :: rest =>
    if x = c then some ([], rest)
    else
      match splitFirstChar c rest with
      | some (pre, post) => some (x :: pre, post)
      | none => none

/-- The `BANK_PATTERNS` table of `preciouss.importers.resolve`, in dict order. -/
def BANK_PATTERNS : List (String × String) :=
  [("招商银行", "CMB"), ("工商银行", "ICBC"), ("建设银行", "CCB"), ("中国银行", "BOC"),
   ("中信银行", "CITIC"), ("农业银行", "ABC"), ("交通银行", "COMM"), ("浦发银行", "SPDB"),
   ("兴业银行", "CIB"), ("民生银行", "CMBC"), ("光大银行", "CEB"), ("平安银行", "PAB"),
   ("广发银行", "GDB"), ("邮储银行", "PSBC"), ("汇丰", "HSBC")]

/-- The `WALLET_ACCOUNTS` table of `preciouss.importers.resolve`, in dict order. -/
def WALLET_ACCOUNTS : List (String × String) :=
  [("零钱", "Assets:WeChat"), ("零钱通", "Assets:WeChat"),
   ("余额", "Assets:Alipay"), ("余额宝", "Assets:Alipay"),
   ("京东白条", "Liabilities:JD:BaiTiao"), ("京东小金库", "Assets:JD:XiaoJinKu"),
   ("微信支付", "Assets:WeChat"), ("财付通", "Assets:WeChat"),
   ("支付宝", "Assets:Alipay"), ("支付宝支付", "Assets:Alipay"),
   ("京东支付", "Assets:JD")]

/-- The `PLATFORM_IDENTIFIERS` table of `preciouss.importers.clearing`, in dict order. -/
def PLATFORM_IDENTIFIERS : List (String × List String) :=
  [("WX", ["微信", "财付通", "WeChat", "Tenpay"]),
   ("Alipay", ["支付宝", "Alipay"]),
   ("ApplePay", ["Apple"])]

/-- The `PLATFORM_INTERNAL_ACCOUNTS` table of `preciouss.importers.clearing`
(`.get(platform, {})`, entries in dict order). -/
def PLATFORM_INTERNAL_ACCOUNTS (platform : String) : List (String × String) :=
  if platform = "WX" then
    [("零钱", "Assets:WeChat"), ("零钱通", "Assets:WeChat")]
  else if platform = "Alipay" then
    [("余额", "Assets:Alipay"), ("余额宝", "Assets:Alipay")]
  else if platform = "JD" then
    [("白条", "Liabilities:JD:BaiTiao"), ("京东白条", "Liabilities:JD:BaiTiao"),
     ("小金库", "Assets:JD:XiaoJinKu"), ("京东小金库", "Assets:JD:XiaoJinKu")]
  else []

/-- Python `sorted(tbl.items(), key=lambda x: -len(x[0]))`: a stable sort by
descending keyword length (so the longest keyword is tried first; `sorted` is
stable, as is `insertionSort`). -/
def sortByKeyLenDesc (l : List (String × String)) : List (String × String) :=
  List.insertionSort (fun a b => b.1.length ≤ a.1.length) l

/-- First payment-channel whose keyword set has a member contained in `m`
(the `for channel_code, keywords in PLATFORM_IDENTIFIERS.items()` loops). -/
def findChannel (m : List Char) : Option String :=
  (PLATFORM_IDENTIFIERS.find? (fun e => e.2.any (fun kw => charsContains kw.data m))).map
    (fun e => e.1)

/-- First bank pattern contained in `m` (the `for bank_name, bank_code in
BANK_PATTERNS.items()` loops). -/
def findBank (m : List Char) : Option String :=
  (BANK_PATTERNS.find? (fun e => charsContains e.1.data m)).map (fun e => e.2)

/-- Body of `preciouss.importers.clearing.resolve_payment_to_clearing` over an
already-stripped character list.  The Python `while`-free recursion on the part
after `-` is modelled with explicit fuel; every call strictly shrinks the
string, and `resolveToClearingChars` below supplies sufficient fuel. -/
def resolveToClearingAux (platform : String) : ℕ → List Char → String
  | 0, _ => "Assets:Clearing:" ++ platform ++ ":Unknown"
  | Nat.succ fuel, m =>
    if m = [] ∨ m = ['/'] then "Assets:Clearing:" ++ platform ++ ":Unknown"
    else
      match (sortByKeyLenDesc (PLATFORM_INTERNAL_ACCOUNTS platform)).find?
          (fun e => e.1.data.isPrefixOf m) with
      | some e => e.2
      | none =>
        match splitFirstChar '-' m with
        | some (pre, post) =>
          match findChannel (trimChars pre) with
          | some ch => "Assets:Clearing:" ++ platform ++ ":" ++ ch
          | none => resolveToClearingAux platform fuel (trimChars post)
        | none =>
          match findChannel m with
          | some ch => "Assets:Clearing:" ++ platform ++ ":" ++ ch
          | none =>
            let cardKind :=
              if charsContains "储蓄卡".data m then "Bank"
              else if charsContains "信用卡".data m then "CC"
              else "CC"
            match findBank m with
            | some code => "Assets:Clearing:" ++ platform ++ ":" ++ cardKind ++ ":" ++ code
            | none => "Assets:Clearing:" ++ platform ++ ":Unknown"

/-- `resolve_payment_to_clearing` on a stripped character list, with fuel
sufficient for every recursive call (the split tail is strictly shorter). -/
def resolveToClearingChars (platform : String) (m : List Char) : String :=
  resolveToClearingAux platform (m.length + 1) m

/-- Shallow embedding of
`preciouss.importers.clearing.resolve_payment_to_clearing`. -/
def resolve_payment_to_clearing (payment_method platform : String) : String :=
  resolveToClearingChars platform (trimChars payment_method.data)

/-- Body of `preciouss.importers.resolve.resolve_payment_account` over an
already-stripped character list, fuelled like `resolveToClearingAux`.  Note
that on a composite `left-right` string this function recurses into the right
part unconditionally: it never inspects the left part. -/
def resolveAccountAux (fallback default_card_type : String) : ℕ → List Char → String
  | 0, _ => fallback
  | Nat.succ fuel, m =>
    if m = [] then fallback
    else
      match (sortByKeyLenDesc WALLET_ACCOUNTS).find? (fun e => e.1.data.isPrefixOf m) with
      | some e => e.2
      | none =>
        match splitFirstChar '-' m with
        | some (_, post) => resolveAccountAux fallback default_card_type fuel (trimChars post)
        | none =>
          let cardKind :=
            if charsContains "储蓄卡".data m then "Assets:Bank"
            else if charsContains "信用卡".data m then "Liabilities:CreditCard"
            else default_card_type
          match findBank m with
          | some code => cardKind ++ ":" ++ code
          | none => fallback

/-- `resolve_payment_account` on a stripped character list with sufficient fuel. -/
def resolveAccountChars (fallback default_card_type : String) (m : List Char) : String :=
  resolveAccountAux fallback default_card_type (m.length + 1) m

/-- Shallow embedding of `preciouss.importers.resolve.resolve_payment_account`
(the `default_card_type` parameter defaults to `"Liabilities:CreditCard"` in
the source and is passed explicitly here). -/
def resolve_payment_account (payment_method fallback default_card_type : String) : String :=
  resolveAccountChars fallback default_card_type (trimChars payment_method.data)

/- ===================== 4.5 Clearing DFS Propagator ===================== -/

/-- Shallow embedding of `preciouss.importers.clearing.is_clearing_account`
(`account.startswith("Assets:Clearing:")`, as a code-point prefix test). -/
def isClearingAccount (a : String) : Bool := "Assets:Clearing:".data.isPrefixOf a.data

/-- Shallow embedding of `preciouss.matching.clearing._is_terminal_expense`:
an expense with a clearing source and a Python-falsy or non-clearing counter. -/
def isTerminalExpense (tx : Transaction) : Bool :=
  tx.tx_type == some "expense" &&
  isClearingAccount tx.source_account &&
  !(strTruthy tx.counter_account && isClearingAccount (tx.counter_account.getD ""))

/-- Lookup in the `counter_index` of `assign_clearing_links`: the indices (in
input order) whose Python-truthy clearing `counter_account` equals `acct`. -/
def counterCandidates (txs : List Transaction) (acct : String) : List ℕ :=
  (List.range txs.length).filter (fun i =>
    strTruthy (nthT txs i).counter_account &&
    isClearingAccount ((nthT txs i).counter_account.getD "") &&
    ((nthT txs i).counter_account.getD "" == acct))

/-- Python-truthy reference values of a transaction
(`{r for r in [tx.reference_id, tx.counterpart_ref] if r}`). -/
def refsOf (tx : Transaction) : List String :=
  (match tx.reference_id with
   | some r => if r = "" then [] else [r]
   | none => []) ++
  (match tx.counterpart_ref with
   | some r => if r = "" then [] else [r]
   | none => [])

/-- Non-empty intersection of the reference sets of two transactions. -/
def refsIntersect (a b : Transaction) : Bool :=
  (refsOf a).any (fun r => (refsOf b).contains r)

/-- `timedelta(days=3)` of the default clearing matcher, in seconds. -/
def clearingDateTolerance : Int := 3 * 86400

/-- Shallow embedding of the default `PrecioussImporter.match_clearing` (no
importer in the repository overrides it): first the reference cross-match over
the candidates in order, then amount+date matching over the candidates stably
sorted by absolute time distance.  Candidates are carried together with their
index in the transaction list, which models Python object identity: the source
tags the exact list member the matcher returned. -/
def matchClearing (seed : Transaction) (cands : List (ℕ × Transaction)) :
    Option (ℕ × Transaction) :=
  match cands.find? (fun c => refsIntersect seed c.2) with
  | some c => some c
  | none =>
    (List.insertionSort (fun a b => |seed.date - a.2.date| ≤ |seed.date - b.2.date|)
        cands).find?
      (fun c =>
        decide (|seed.date - c.2.date| ≤ clearingDateTolerance) && amountsMatch seed c.2)

/-- The `while True` loop of `preciouss.matching.clearing._dfs_propagate`,
with the link state `links : ℕ → Option String` standing for the mutated
`metadata["link"]` fields and the current transaction tracked by its index
(the source recovers that index by an object-identity scan).  `impPresent`
models `importer_map.get`; every importer uses the inherited default matcher.
The loop is modelled with fuel; each pass tags one previously untagged
transaction, so `untaggedCount`-many steps suffice (proved below). -/
def dfsGo (txs : List Transaction) (impPresent : ℕ → Bool) (linkName : String) :
    ℕ → (ℕ → Option String) → ℕ → (ℕ → Option String) × ℕ
  | 0, links, _ => (links, 0)
  | Nat.succ fuel, links, cur =>
    if !isClearingAccount (nthT txs cur).source_account then (links, 0)
    else if ((counterCandidates txs (nthT txs cur).source_account).filter
        (fun i => !strTruthy (links i))).isEmpty then (links, 0)
    else if !impPresent cur then (links, 0)
    else
      match matchClearing (nthT txs cur)
          (((counterCandidates txs (nthT txs cur).source_account).filter
            (fun i => !strTruthy (links i))).map (fun i => (i, nthT txs i))) with
      | none => (links, 0)
      | some mc =>
        ((dfsGo txs impPresent linkName fuel
            (Function.update links mc.1 (some linkName)) mc.1).1,
         (dfsGo txs impPresent linkName fuel
            (Function.update links mc.1 (some linkName)) mc.1).2 + 1)

/-- Number of transactions not yet carrying a Python-truthy link. -/
def untaggedCount (txs : List Transaction) (links : ℕ → Option String) : ℕ :=
  (((List.range txs.length).filter (fun i => !strTruthy (links i)))).length

/-- `f"clr-{n:06d}"`: zero-pad the decimal representation to width six. -/
def clrName (n : ℕ) : String :=
  let s := toString n
  "clr-" ++ String.mk (List.replicate (6 - s.length) '0') ++ s

/-- Running statistics of `assign_clearing_links`
(`preciouss.matching.clearing.ClearingStats`). -/
structure ClearingStats where
  total_chains : ℕ
  total_linked : ℕ
  unmatched_terminal : ℕ
deriving DecidableEq, Inhabited

/-- Main loop of `assign_clearing_links` over the transaction indices: each
untagged terminal expense seeds a fresh `clr-NNNNNN` chain and the DFS
propagates it upstream; `unmatched_terminal` counts seeds whose DFS tagged
nothing.  The state is `(links, link_counter, total_linked, unmatched)`. -/
def assignGo (txs : List Transaction) (impPresent : ℕ → Bool) :
    List ℕ → (ℕ → Option String) × ℕ × ℕ × ℕ → (ℕ → Option String) × ℕ × ℕ × ℕ
  | [], st => st
  | i :: rest, (links, counter, linked, unmatched) =>
    if !isTerminalExpense (nthT txs i) then
      assignGo txs impPresent rest (links, counter, linked, unmatched)
    else if strTruthy (links i) then
      assignGo txs impPresent rest (links, counter, linked, unmatched)
    else
      assignGo txs impPresent rest
        ((dfsGo txs impPresent (clrName counter) (txs.length + 1)
            (Function.update links i (some (clrName counter))) i).1,
         counter + 1,
         linked + 1 + (dfsGo txs impPresent (clrName counter) (txs.length + 1)
            (Function.update links i (some (clrName counter))) i).2,
         unmatched + (if (dfsGo txs impPresent (clrName counter) (txs.length + 1)
            (Function.update links i (some (clrName counter))) i).2 = 0 then 1 else 0))

/-- Shallow embedding of `preciouss.matching.clearing.assign_clearing_links`:
takes the initial link state (the pre-existing `metadata["link"]` values) and
returns the final link state together with the run statistics. -/
def assign_clearing_links (txs : List Transaction) (impPresent : ℕ → Bool)
    (links0 : ℕ → Option String) : (ℕ → Option String) × ClearingStats :=
  let st := assignGo txs impPresent (List.range txs.length) (links0, 0, 0, 0)
  (st.1, ⟨st.2.1, st.2.2.1, st.2.2.2⟩)

/-- Canonical complete clearing chain over a list of clearing accounts:
position `0` is the terminal expense (clearing source, no counter), position
`i ≥ 1` is the bridge whose `counter_account` is the previous hop's source.
All hops share date, amount and currency, so the default matcher's
amount+date phase selects each upstream hop. -/
def chainTx (accts : List String) (i : ℕ) : Transaction :=
  { date := 0
    amount := -100
    currency := "CNY"
    source_account := accts.getD i ""
    tx_type := some "expense"
    counter_account := if i = 0 then none else some (accts.getD (i - 1) "") }

/-- The transaction list of the canonical chain. -/
def mkChain (accts : List String) : List Transaction :=
  (List.range accts.length).map (chainTx accts)

/-- Indexing into a list of rationals, defaulting to `0`. -/
def nthQ (l : List ℚ) (i : ℕ) : ℚ := l.getD i 0

/-- Indexing into a category-group list. -/
def nthG (l : List (String × ℚ × List Item)) (i : ℕ) : String × ℚ × List Item :=
  l.getD i ("", 0, [])

/-- Concrete tie input for the residual witness: two half-cent items in
categories `A` and `B`; both round to `0.00`, leaving a residual of `0.01`. -/
def tieItemA : Item := { name := "a", num := 1, price := (1 : ℚ)/200, category := "A" }

/-- Second item of the residual-tie witness input. -/
def tieItemB : Item := { name := "b", num := 1, price := (1 : ℚ)/200, category := "B" }

/-- Input refuting C4 as stated: three transactions sharing reference `"K"`,
with sources `A`, `A`, `B` in that order. -/
def ceTx0 : Transaction := { reference_id := some "K", source_account := "A", payee := "t0" }

/-- Second transaction of the C4 counterexample input (same source as the first). -/
def ceTx1 : Transaction := { reference_id := some "K", source_account := "A", payee := "t1" }

/-- Third transaction of the C4 counterexample input (different source). -/
def ceTx2 : Transaction := { reference_id := some "K", source_account := "B", payee := "t2" }

/-- Invariant of every phase loop: the transactions inside the matched pairs
are exactly the transactions at the consumed indices (as multisets), and all
consumed indices are in range. -/
def engineInv (txs : List Transaction) (st : List MatchResult × Finset ℕ) : Prop :=
  (↑(pairElems st.1) : Multiset Transaction) = Multiset.map (nthT txs) st.2.val ∧
  st.2 ⊆ Finset.range txs.length

/-- First transaction of the C3 cycle input: the terminal expense. -/
def cycTx0 : Transaction :=
  { source_account := "Assets:Clearing:A", tx_type := some "expense" }

/-- Second transaction of the C3 cycle input: bridge from `X` back into `A`. -/
def cycTx1 : Transaction :=
  { source_account := "Assets:Clearing:X", tx_type := some "expense",
    counter_account := some "Assets:Clearing:A" }

/-- Third transaction of the C3 cycle input: bridge from `A` into `X`, closing
the cycle back to the chain's originating clearing account. -/
def cycTx2 : Transaction :=
  { source_account := "Assets:Clearing:A", tx_type := some "expense",
    counter_account := some "Assets:Clearing:X" }

/-- Link state in which exactly the chain positions `0..k` are tagged. -/
def linksUpTo (k : ℕ) : ℕ → Option String :=
  fun i => if i ≤ k then some "clr-000000" else none

/-! ## Theorems -/

/- ===================== Deduplicator lemmas ===================== -/

theorem dedupGo_sublist (seen : List String) :
    ∀ l : List Transaction, (dedupGo seen l).Sublist l := by
  intro l
  induction l generalizing seen with
  | nil => simp [dedupGo]
  | cons tx rest ih =>
    unfold dedupGo
    cases htx : tx.reference_id with
    | none => exact (ih seen).cons₂ tx
    | some r =>
      by_cases hr : r ∈ seen
      · simp only [if_pos hr]
        exact (ih seen).cons tx
      · simp only [if_neg hr]
        exact (ih (r :: seen)).cons₂ tx

theorem nthT_append_left (pre suf : List Transaction) (j : ℕ) (h : j < pre.length) :
    nthT (pre ++ suf) j = nthT pre j := by
  unfold nthT
  exact List.getD_append pre suf defaultTx j h

theorem nthT_append_length (pre : List Transaction) (tx : Transaction)
    (suf : List Transaction) : nthT (pre ++ tx :: suf) pre.length = tx := by
  unfold nthT
  rw [List.getD_append_right pre (tx :: suf) defaultTx pre.length (le_refl _)]
  simp

theorem dedupGo_eq (suf : List Transaction) :
    ∀ (pre : List Transaction) (seen : List String),
      (∀ r : String, r ∈ seen ↔ ∃ j < pre.length, (nthT pre j).reference_id = some r) →
      dedupGo seen suf =
        ((List.range' pre.length suf.length).filter (keptB (pre ++ suf))).map
          (nthT (pre ++ suf)) := by
  induction suf with
  | nil => intro pre seen _; simp [dedupGo]
  | cons tx rest ih =>
    intro pre seen hseen
    have hlen : (pre ++ [tx]).length = pre.length + 1 := by simp
    have hnth : nthT (pre ++ tx :: rest) pre.length = tx := nthT_append_length pre tx rest
    have hassoc : (pre ++ [tx]) ++ rest = pre ++ tx :: rest := by simp
    have hkept : keptB (pre ++ tx :: rest) pre.length =
        (match tx.reference_id with
         | none => true
         | some r => decide (∀ j < pre.length,
             (nthT (pre ++ tx :: rest) j).reference_id ≠ some r)) := by
      simp only [keptB, hnth]
    have hrange : List.range' pre.length (tx :: rest).length =
        pre.length :: List.range' (pre.length + 1) rest.length := by
      simp [List.range'_succ]
    unfold dedupGo
    cases htx : tx.reference_id with
    | none =>
      have hk : keptB (pre ++ tx :: rest) pre.length = true := by rw [hkept, htx]
      rw [hrange]
      simp only [List.filter_cons, hk, if_pos]
      rw [List.map_cons, hnth]
      have := ih (pre ++ [tx]) seen ?_
      · rw [hassoc, hlen] at this; rw [← this]
      · intro r
        rw [hseen r]
        constructor
        · rintro ⟨j, hj, hjr⟩
          exact ⟨j, by omega, by rwa [nthT_append_left pre [tx] j hj]⟩
        · rintro ⟨j, hj, hjr⟩
          rcases Nat.lt_or_ge j pre.length with hlt | hge
          · exact ⟨j, hlt, by rwa [nthT_append_left pre [tx] j hlt] at hjr⟩
          · exfalso
            have : j = pre.length := by simp at hj; omega
            subst this
            rw [nthT_append_length pre tx []] at hjr
            rw [htx] at hjr; exact Option.noConfusion hjr
    | some r =>
      have hinv : ∀ r' : String, r' ∈ (if r ∈ seen then seen else r :: seen) ↔
          ∃ j < (pre ++ [tx]).length, (nthT (pre ++ [tx]) j).reference_id = some r' := by
        intro r'
        have base : r' ∈ seen ↔ ∃ j < pre.length, (nthT pre j).reference_id = some r' :=
          hseen r'
        have hback : ∀ j < pre.length,
            (nthT (pre ++ [tx]) j).reference_id = (nthT pre j).reference_id := by
          intro j hj; rw [nthT_append_left pre [tx] j hj]
        have hat : (nthT (pre ++ [tx]) pre.length).reference_id = some r := by
          rw [nthT_append_length pre tx []]; exact htx
        by_cases hr : r ∈ seen
        · simp only [if_pos hr]
          rw [base]
          constructor
          · rintro ⟨j, hj, hjr⟩; exact ⟨j, by omega, by rw [hback j hj]; exact hjr⟩
          · rintro ⟨j, hj, hjr⟩
            rcases Nat.lt_or_ge j pre.length with hlt | hge
            · exact ⟨j, hlt, by rw [← hback j hlt]; exact hjr⟩
            · have : j = pre.length := by simp at hj; omega
              subst this
              rw [hat] at hjr
              obtain rfl : r = r' := by injection hjr
              exact base.mp hr
        · simp only [if_neg hr, List.mem_cons]
          constructor
          · rintro (rfl | hmem)
            · exact ⟨pre.length, by omega, hat⟩
            · obtain ⟨j, hj, hjr⟩ := base.mp hmem
              exact ⟨j, by omega, by rw [hback j hj]; exact hjr⟩
          · rintro ⟨j, hj, hjr⟩
            rcases Nat.lt_or_ge j pre.length with hlt | hge
            · exact Or.inr (base.mpr ⟨j, hlt, by rw [← hback j hlt]; exact hjr⟩)
            · have : j = pre.length := by simp at hj; omega
              subst this
              rw [hat] at hjr
              exact Or.inl (by injection hjr with h; exact h.symm)
      by_cases hr : r ∈ seen
      · obtain ⟨j0, hj0, hj0r⟩ := (hseen r).mp hr
        have hk : keptB (pre ++ tx :: rest) pre.length = false := by
          rw [hkept, htx]
          simp only [decide_eq_false_iff_not]
          push_neg
          exact ⟨j0, hj0, by rw [nthT_append_left pre (tx :: rest) j0 hj0]; exact hj0r⟩
        rw [hrange]
        simp only [if_pos hr, List.filter_cons, hk]
        simp only [Bool.false_eq_true, if_false]
        have := ih (pre ++ [tx]) seen (by simpa [if_pos hr] using hinv)
        rw [hassoc, hlen] at this; rw [this]
      · have hk : keptB (pre ++ tx :: rest) pre.length = true := by
          rw [hkept, htx]
          simp only [decide_eq_true_eq]
          intro j hj hjr
          rw [nthT_append_left pre (tx :: rest) j hj] at hjr
          exact hr ((hseen r).mpr ⟨j, hj, hjr⟩)
        rw [hrange]
        simp only [if_neg hr, List.filter_cons, hk, if_pos]
        rw [List.map_cons, hnth]
        have := ih (pre ++ [tx]) (r :: seen) (by simpa [if_neg hr] using hinv)
        rw [hassoc, hlen] at this; rw [← this]

theorem deduplicate_eq (txs : List Transaction) :
    deduplicate txs = (keptIndices txs).map (nthT txs) := by
  have h := dedupGo_eq txs [] [] (by simp)
  simpa [deduplicate, keptIndices, List.range_eq_range'] using h

/-- C6: the deduplicator returns an order-preserving sublist characterized
positionally: index `i` survives iff its transaction has no `reference_id`
(`None`) or no strictly earlier index carries the same `reference_id`, so a
record without `reference_id` is always kept and among records sharing a
repeated `reference_id` exactly the first occurrence survives. -/
theorem dedup_first_occurrence (txs : List Transaction) :
    deduplicate txs = (keptIndices txs).map (nthT txs) ∧
    (deduplicate txs).Sublist txs :=
  ⟨deduplicate_eq txs, dedupGo_sublist [] txs⟩

/-- C10: a `reference_id` equal to the empty string participates in
deduplication (only `None` counts as lacking), so the later of two
empty-string-referenced transactions is not among the kept indices. -/
theorem dedup_empty_string_participates (txs : List Transaction) (i j : ℕ)
    (hij : i < j) (hj : j < txs.length)
    (hi : (nthT txs i).reference_id = some "")
    (hjr : (nthT txs j).reference_id = some "") :
    j ∉ keptIndices txs ∧ deduplicate txs = (keptIndices txs).map (nthT txs) := by
  refine ⟨?_, deduplicate_eq txs⟩
  intro hmem
  have hkept : keptB txs j = true := (List.mem_filter.mp hmem).2
  rw [keptB, hjr] at hkept
  simp only [decide_eq_true_eq] at hkept
  exact hkept i hij hi

/-- Witness for C10 at a concrete two-element list with empty-string ids. -/
theorem dedup_empty_string_participates_witness :
    (0 : ℕ) < 1 ∧
    1 ∉ keptIndices [{ reference_id := some "" }, { reference_id := some "" }] ∧
    deduplicate [{ reference_id := some "" }, { reference_id := some "" }] =
      (keptIndices [{ reference_id := some "" }, { reference_id := some "" }]).map
        (nthT [{ reference_id := some "" }, { reference_id := some "" }]) :=
  ⟨by decide,
   dedup_empty_string_participates _ 0 1 (by decide) (by decide) (by decide) (by decide)⟩

/- ===================== Amount matcher symmetry ===================== -/

/-- C9: the clearing matcher's amount-equality test `_amounts_match` is
symmetric in its two transaction arguments (unconditionally, hence in
particular when one side's foreign metadata equals the other's native
amount and currency). -/
theorem amounts_match_symm (a b : Transaction) : amountsMatch a b = amountsMatch b a := by
  unfold amountsMatch
  have h1 : (a.currency == b.currency) = (b.currency == a.currency) := by
    simp only [Bool.beq_comm]
  have h2 : (decide (|a.amount| = |b.amount|)) = (decide (|b.amount| = |a.amount|)) := by
    simp [eq_comm]
  rw [h1, h2, Bool.or_comm]

/- ===================== Proportional Allocator lemmas ===================== -/

theorem upsertCategory_ne_nil (acc : List (String × ℚ × List Item)) (cat : String)
    (eff : ℚ) (it : Item) : upsertCategory acc cat eff it ≠ [] := by
  match acc with
  | [] => simp [upsertCategory]
  | (c, t, its) :: rest =>
    unfold upsertCategory
    by_cases h : c = cat <;> simp [h]

theorem groupByCategory_ne_nil (items : List Item) (scale : ℚ) (h : items ≠ []) :
    groupByCategory items scale ≠ [] := by
  have key : ∀ (l : List Item) (acc : List (String × ℚ × List Item)), acc ≠ [] →
      l.foldl (fun acc it =>
        upsertCategory acc it.category (quantize2 (itemSubtotal it * scale)) it) acc ≠ [] := by
    intro l
    induction l with
    | nil => intro acc hacc; simpa using hacc
    | cons it rest ih =>
      intro acc hacc
      simp only [List.foldl_cons]
      exact ih _ (upsertCategory_ne_nil acc it.category _ it)
  match items with
  | [] => exact absurd rfl h
  | it :: rest =>
    unfold groupByCategory
    simp only [List.foldl_cons]
    exact key rest _ (upsertCategory_ne_nil [] it.category _ it)

theorem preGroups_ne_nil (items : List Item) (total : ℚ) (h : listedTotal items ≠ 0) :
    preGroups items total ≠ [] := by
  have hitems : items ≠ [] := by
    intro he; apply h; simp [he, listedTotal]
  have hg := groupByCategory_ne_nil items (total / listedTotal items) hitems
  unfold preGroups sortByAccount
  intro he
  apply hg
  have hperm := List.perm_insertionSort (fun a b => charsLe a.1.data b.1.data = true)
    (groupByCategory items (total / listedTotal items))
  have := congrArg List.length he
  rw [hperm.length_eq] at this
  exact List.eq_nil_of_length_eq_zero this

theorem set_entry_sum (l : List (String × ℚ × List Item)) :
    ∀ (idx : ℕ) (a : String) (t : ℚ) (its : List Item) (t' : ℚ),
      l.get? idx = some (a, t, its) →
      ((l.set idx (a, t', its)).map entryTotal).sum = (l.map entryTotal).sum - t + t' := by
  induction l with
  | nil => intro idx a t its t' h; simp at h
  | cons e rest ih =>
    intro idx a t its t' h
    match idx with
    | 0 =>
      simp only [List.get?_cons_zero, Option.some_inj] at h
      subst h
      simp [entryTotal]
      ring
    | n + 1 =>
      simp only [List.get?_cons_succ] at h
      simp only [List.set_cons_succ, List.map_cons, List.sum_cons, ih n a t its t' h]
      ring

theorem bumpAt_sum (l : List (String × ℚ × List Item)) (idx : ℕ) (diff : ℚ)
    (h : idx < l.length) :
    ((bumpAt l idx diff).map entryTotal).sum = (l.map entryTotal).sum + diff := by
  obtain ⟨⟨a, t, its⟩, he⟩ : ∃ e, l.get? idx = some e := by
    rw [List.get?_eq_getElem?]
    exact ⟨l[idx], List.getElem?_eq_getElem h⟩
  unfold bumpAt
  rw [he]
  rw [set_entry_sum l idx a t its (t + diff) he]
  ring

theorem nthQ_append_left (l l' : List ℚ) (j : ℕ) (h : j < l.length) :
    nthQ (l ++ l') j = nthQ l j := by
  unfold nthQ
  exact List.getD_append l l' 0 j h

theorem nthQ_append_length (l : List ℚ) (v : ℚ) (l' : List ℚ) :
    nthQ (l ++ v :: l') l.length = v := by
  unfold nthQ
  rw [List.getD_append_right l (v :: l') 0 l.length (le_refl _)]
  simp

theorem argmaxAux_spec (rest : List ℚ) :
    ∀ (pre : List ℚ) (best : ℕ) (bv : ℚ),
      best < pre.length → nthQ pre best = bv →
      (∀ j < pre.length, nthQ pre j ≤ bv) →
      (∀ j < best, nthQ pre j < bv) →
      argmaxAux rest pre.length best bv < (pre ++ rest).length ∧
      (∀ j < (pre ++ rest).length,
        nthQ (pre ++ rest) j ≤ nthQ (pre ++ rest) (argmaxAux rest pre.length best bv)) ∧
      (∀ j < argmaxAux rest pre.length best bv,
        nthQ (pre ++ rest) j < nthQ (pre ++ rest) (argmaxAux rest pre.length best bv)) := by
  induction rest with
  | nil =>
    intro pre best bv hbl hbv hmax hfirst
    simp only [argmaxAux, List.append_nil]
    refine ⟨hbl, ?_, ?_⟩
    · intro j hj; rw [hbv]; exact hmax j hj
    · intro j hj; rw [hbv]; exact hfirst j hj
  | cons v rest ih =>
    intro pre best bv hbl hbv hmax hfirst
    have hassoc : (pre ++ [v]) ++ rest = pre ++ v :: rest := by simp
    have hlen1 : (pre ++ [v]).length = pre.length + 1 := by simp
    have hatv : nthQ (pre ++ [v]) pre.length = v := nthQ_append_length pre v []
    unfold argmaxAux
    by_cases hlt : bv < v
    · simp only [if_pos hlt]
      have h := ih (pre ++ [v]) pre.length v (by omega) hatv ?_ ?_
      · rw [hassoc, hlen1] at h
        exact h
      · intro j hj
        rcases Nat.lt_or_ge j pre.length with hl | hg
        · rw [nthQ_append_left pre [v] j hl]
          exact le_of_lt (lt_of_le_of_lt (hmax j hl) hlt)
        · have : j = pre.length := by omega
          subst this; rw [hatv]
      · intro j hj
        rw [nthQ_append_left pre [v] j (by omega)]
        exact lt_of_le_of_lt (hmax j (by omega)) hlt
    · simp only [if_neg hlt]
      have h := ih (pre ++ [v]) best bv (by omega) ?_ ?_ ?_
      · rw [hassoc, hlen1] at h
        exact h
      · rw [nthQ_append_left pre [v] best hbl]; exact hbv
      · intro j hj
        rcases Nat.lt_or_ge j pre.length with hl | hg
        · rw [nthQ_append_left pre [v] j hl]; exact hmax j hl
        · have : j = pre.length := by omega
          subst this; rw [hatv]; exact le_of_not_lt hlt
      · intro j hj
        rw [nthQ_append_left pre [v] j (by omega)]
        exact hfirst j hj

theorem firstArgmax_spec (vals : List ℚ) (h : vals ≠ []) :
    firstArgmax vals < vals.length ∧
    (∀ j < vals.length, nthQ vals j ≤ nthQ vals (firstArgmax vals)) ∧
    (∀ j < firstArgmax vals, nthQ vals j < nthQ vals (firstArgmax vals)) := by
  match vals with
  | [] => exact absurd rfl h
  | v :: rest =>
    have h := argmaxAux_spec rest [v] 0 v (by simp) (by simp [nthQ]) ?_ ?_
    · have e : ([v] ++ rest : List ℚ) = v :: rest := by simp
      have hl : ([v] : List ℚ).length = 1 := rfl
      rw [e, hl] at h
      have hfa : firstArgmax (v :: rest) = argmaxAux rest 1 0 v := rfl
      rw [hfa]
      exact h
    · intro j hj
      have : j = 0 := by simpa using hj
      subst this; simp [nthQ]
    · intro j hj; omega

/-- C1: when the listed subtotals sum to zero the allocator returns the empty
list (no division occurs), and otherwise the allocated per-category amounts
sum exactly to the target total, whatever the per-item rounding did. -/
theorem alloc_sum_exact (items : List Item) (total : ℚ) :
    (listedTotal items = 0 → group_items_by_category items total = []) ∧
    (listedTotal items ≠ 0 →
      ((group_items_by_category items total).map entryTotal).sum = total) := by
  constructor
  · intro h
    unfold group_items_by_category
    rw [if_pos h]
  · intro h
    have hpre := preGroups_ne_nil items total h
    unfold group_items_by_category
    rw [if_neg h]
    simp only []
    by_cases hd : total - ((preGroups items total).map entryTotal).sum ≠ 0
    · rw [if_pos ⟨hd, hpre⟩]
      have hidx : firstArgmax ((preGroups items total).map entryTotal) <
          (preGroups items total).length := by
        have := (firstArgmax_spec ((preGroups items total).map entryTotal)
          (by simpa using hpre)).1
        simpa using this
      rw [bumpAt_sum _ _ _ hidx]
      ring
    · rw [if_neg (fun hc => hd hc.1)]
      push_neg at hd
      exact (sub_eq_zero.mp hd).symm

/-- Witness for C1 on the spec's own scenario (`115.9 + 33.9` listed, target
`141.8`) and on a zero-sum list. -/
theorem alloc_sum_exact_witness :
    (listedTotal [{ name := "z", num := 1, price := 0, category := "A" }] = 0 ∧
      group_items_by_category [{ name := "z", num := 1, price := 0, category := "A" }] 5 = []) ∧
    (listedTotal [{ name := "a", num := 1, price := (1159 : ℚ)/10, category := "Expenses:A" },
        { name := "b", num := 1, price := (339 : ℚ)/10, category := "Expenses:B" }] ≠ 0 ∧
      ((group_items_by_category
          [{ name := "a", num := 1, price := (1159 : ℚ)/10, category := "Expenses:A" },
           { name := "b", num := 1, price := (339 : ℚ)/10, category := "Expenses:B" }]
          ((1418 : ℚ)/10)).map entryTotal).sum = (1418 : ℚ)/10) :=
  ⟨⟨by norm_num [listedTotal, itemSubtotal],
    (alloc_sum_exact _ 5).1 (by norm_num [listedTotal, itemSubtotal])⟩,
   ⟨by norm_num [listedTotal, itemSubtotal],
    (alloc_sum_exact _ ((1418 : ℚ)/10)).2 (by norm_num [listedTotal, itemSubtotal])⟩⟩

theorem charsLe_refl (a : List Char) : charsLe a a = true := by
  induction a with
  | nil => rfl
  | cons c cs ih => simp [charsLe, ih]

theorem charsLe_total (a b : List Char) : (charsLe a b || charsLe b a) = true := by
  induction a generalizing b with
  | nil => simp [charsLe]
  | cons c cs ih =>
    cases b with
    | nil => simp [charsLe]
    | cons d ds =>
      by_cases h1 : c.toNat < d.toNat
      · simp [charsLe, h1]
      · by_cases h2 : d.toNat < c.toNat
        · simp [charsLe, h1, h2]
        · simpa [charsLe, h1, h2] using ih ds

theorem charsLe_trans : ∀ (a b c : List Char),
    charsLe a b = true → charsLe b c = true → charsLe a c = true := by
  intro a
  induction a with
  | nil => intro b c _ _; rfl
  | cons x xs ih =>
    intro b c hab hbc
    match b, c with
    | [], _ => exact absurd hab (by simp [charsLe])
    | _ :: _, [] => exact absurd hbc (by simp [charsLe])
    | y :: ys, z :: zs =>
      simp only [charsLe] at hab hbc ⊢
      rcases Nat.lt_trichotomy x.toNat y.toNat with h1 | h1 | h1
      · rcases Nat.lt_trichotomy y.toNat z.toNat with h2 | h2 | h2
        · simp [show x.toNat < z.toNat from lt_trans h1 h2]
        · simp [show x.toNat < z.toNat from h2 ▸ h1]
        · rw [if_neg (by omega), if_pos h2] at hbc
          exact absurd hbc (by simp)
      · rcases Nat.lt_trichotomy y.toNat z.toNat with h2 | h2 | h2
        · simp [show x.toNat < z.toNat by omega]
        · rw [if_neg (by omega), if_neg (by omega)] at hab
          rw [if_neg (by omega), if_neg (by omega)] at hbc
          rw [if_neg (by omega), if_neg (by omega)]
          exact ih ys zs hab hbc
        · rw [if_neg (by omega), if_pos h2] at hbc
          exact absurd hbc (by simp)
      · rw [if_neg (by omega), if_pos h1] at hab
        exact absurd hab (by simp)

theorem sortByAccount_sorted (l : List (String × ℚ × List Item)) :
    List.Pairwise (fun a b => charsLe a.1.data b.1.data = true) (sortByAccount l) := by
  haveI : IsTotal (String × ℚ × List Item) (fun a b => charsLe a.1.data b.1.data = true) :=
    ⟨fun a b => Bool.or_eq_true_iff.mp (charsLe_total a.1.data b.1.data)⟩
  haveI : IsTrans (String × ℚ × List Item) (fun a b => charsLe a.1.data b.1.data = true) :=
    ⟨fun a b c hab hbc => charsLe_trans a.1.data b.1.data c.1.data hab hbc⟩
  exact List.sorted_insertionSort _ l

theorem sorted_nthG_le (l : List (String × ℚ × List Item))
    (h : List.Pairwise (fun a b => charsLe a.1.data b.1.data = true) l)
    (i j : ℕ) (hij : i < j) (hj : j < l.length) :
    charsLe (nthG l i).1.data (nthG l j).1.data = true := by
  rw [List.pairwise_iff_get] at h
  have hi : i < l.length := lt_trans hij hj
  have := h ⟨i, hi⟩ ⟨j, hj⟩ hij
  unfold nthG
  rw [List.getD_eq_getElem _ _ hi, List.getD_eq_getElem _ _ hj]
  simpa [List.get_eq_getElem] using this

theorem nthQ_map_entryTotal (l : List (String × ℚ × List Item)) (j : ℕ)
    (h : j < l.length) : nthQ (l.map entryTotal) j = entryTotal (nthG l j) := by
  unfold nthQ nthG
  rw [List.getD_eq_getElem _ _ (by simpa using h), List.getD_eq_getElem _ _ h,
    List.getElem_map]

/-- C8: when the rounding residual is non-zero, the allocator adds the whole
residual to the entry at `firstArgmax` of the accumulated totals; that index
is in range, carries the (weakly) largest total, is strictly larger than every
earlier entry (first maximum wins), and among all entries tying for the
largest total its account name is the lexicographically smallest (the first in
the sorted order). -/
theorem alloc_residual_to_largest (items : List Item) (total : ℚ)
    (h0 : listedTotal items ≠ 0)
    (hd : total - ((preGroups items total).map entryTotal).sum ≠ 0) :
    group_items_by_category items total =
      bumpAt (preGroups items total)
        (firstArgmax ((preGroups items total).map entryTotal))
        (total - ((preGroups items total).map entryTotal).sum) ∧
    firstArgmax ((preGroups items total).map entryTotal) < (preGroups items total).length ∧
    (∀ j < (preGroups items total).length,
      entryTotal (nthG (preGroups items total) j) ≤
        entryTotal (nthG (preGroups items total)
          (firstArgmax ((preGroups items total).map entryTotal)))) ∧
    (∀ j < firstArgmax ((preGroups items total).map entryTotal),
      entryTotal (nthG (preGroups items total) j) <
        entryTotal (nthG (preGroups items total)
          (firstArgmax ((preGroups items total).map entryTotal)))) ∧
    (∀ j < (preGroups items total).length,
      entryTotal (nthG (preGroups items total) j) =
        entryTotal (nthG (preGroups items total)
          (firstArgmax ((preGroups items total).map entryTotal))) →
      charsLe (nthG (preGroups items total)
          (firstArgmax ((preGroups items total).map entryTotal))).1.data
        (nthG (preGroups items total) j).1.data = true) := by
  have hpre : preGroups items total ≠ [] := preGroups_ne_nil items total h0
  have hmapne : (preGroups items total).map entryTotal ≠ [] := by simpa using hpre
  have hspec := firstArgmax_spec ((preGroups items total).map entryTotal) hmapne
  have hlen : ((preGroups items total).map entryTotal).length =
      (preGroups items total).length := by simp
  have hidx : firstArgmax ((preGroups items total).map entryTotal) <
      (preGroups items total).length := hlen ▸ hspec.1
  refine ⟨?_, hidx, ?_, ?_, ?_⟩
  · unfold group_items_by_category
    rw [if_neg h0]
    simp only []
    rw [if_pos ⟨hd, hpre⟩]
  · intro j hj
    have := hspec.2.1 j (by omega)
    rwa [nthQ_map_entryTotal _ j hj, nthQ_map_entryTotal _ _ hidx] at this
  · intro j hj
    have := hspec.2.2 j hj
    rwa [nthQ_map_entryTotal _ j (by omega), nthQ_map_entryTotal _ _ hidx] at this
  · intro j hj heq
    rcases lt_trichotomy j (firstArgmax ((preGroups items total).map entryTotal))
      with h | h | h
    · exfalso
      have := hspec.2.2 j h
      rw [nthQ_map_entryTotal _ j (by omega), nthQ_map_entryTotal _ _ hidx] at this
      exact absurd heq (ne_of_lt this)
    · rw [h]
      exact charsLe_refl _
    · exact sorted_nthG_le (preGroups items total)
        (sortByAccount_sorted (groupByCategory items (total / listedTotal items)))
        _ j h hj

theorem tie_listedTotal : listedTotal [tieItemA, tieItemB] = (1 : ℚ)/100 := by
  norm_num [listedTotal, itemSubtotal, tieItemA, tieItemB]

theorem tie_quantize : quantize2 ((1 : ℚ)/200) = 0 := by
  unfold quantize2 roundHalfEvenInt
  have h100 : ((1 : ℚ)/200) * 100 = 1/2 := by norm_num
  rw [h100]
  have hfl : (⌊(1/2 : ℚ)⌋ : ℤ) = 0 := by
    rw [Int.floor_eq_iff] <;> norm_num
  rw [hfl]
  norm_num

theorem tie_preGroups : preGroups [tieItemA, tieItemB] ((1 : ℚ)/100) =
    [("A", 0, [tieItemA]), ("B", 0, [tieItemB])] := by
  have hvalA : itemSubtotal tieItemA * ((1 : ℚ)/100 / listedTotal [tieItemA, tieItemB]) =
      (1 : ℚ)/200 := by
    rw [tie_listedTotal]; norm_num [itemSubtotal, tieItemA]
  have hvalB : itemSubtotal tieItemB * ((1 : ℚ)/100 / listedTotal [tieItemA, tieItemB]) =
      (1 : ℚ)/200 := by
    rw [tie_listedTotal]; norm_num [itemSubtotal, tieItemB]
  have hg : groupByCategory [tieItemA, tieItemB]
      ((1 : ℚ)/100 / listedTotal [tieItemA, tieItemB]) =
      [("A", 0, [tieItemA]), ("B", 0, [tieItemB])] := by
    unfold groupByCategory
    simp only [List.foldl_cons, List.foldl_nil]
    rw [show tieItemA.category = "A" from rfl, show tieItemB.category = "B" from rfl,
      hvalA, hvalB, tie_quantize]
    unfold upsertCategory
    norm_num [upsertCategory]
    decide
  have hsorted : sortByAccount [("A", (0 : ℚ), [tieItemA]), ("B", (0 : ℚ), [tieItemB])] =
      [("A", 0, [tieItemA]), ("B", 0, [tieItemB])] := by
    apply List.Sorted.insertionSort_eq
    refine List.Pairwise.cons ?_ (List.pairwise_singleton _ _)
    intro e he
    rw [List.mem_singleton] at he
    subst he
    decide
  unfold preGroups
  rw [hg, hsorted]

/-- Witness for C8: on the half-cent tie input the residual `0.01` is added to
category `A`, the lexicographically smallest of the two tied categories. -/
theorem alloc_residual_to_largest_witness :
    listedTotal [tieItemA, tieItemB] ≠ 0 ∧
    (1 : ℚ)/100 - ((preGroups [tieItemA, tieItemB] ((1 : ℚ)/100)).map entryTotal).sum ≠ 0 ∧
    group_items_by_category [tieItemA, tieItemB] ((1 : ℚ)/100) =
      bumpAt (preGroups [tieItemA, tieItemB] ((1 : ℚ)/100))
        (firstArgmax ((preGroups [tieItemA, tieItemB] ((1 : ℚ)/100)).map entryTotal))
        ((1 : ℚ)/100 -
          ((preGroups [tieItemA, tieItemB] ((1 : ℚ)/100)).map entryTotal).sum) := by
  have h0 : listedTotal [tieItemA, tieItemB] ≠ 0 := by
    rw [tie_listedTotal]; norm_num
  have hd : (1 : ℚ)/100 -
      ((preGroups [tieItemA, tieItemB] ((1 : ℚ)/100)).map entryTotal).sum ≠ 0 := by
    rw [tie_preGroups]
    norm_num [entryTotal]
  exact ⟨h0, hd, (alloc_residual_to_largest [tieItemA, tieItemB] ((1 : ℚ)/100) h0 hd).1⟩

/- ===================== Matching Engine Phase 1 lemmas ===================== -/

theorem phase1KeyGo_gone (txs : List Transaction) (i0 : ℕ) :
    ∀ (rest : List ℕ) (ms : List MatchResult) (matched : Finset ℕ),
      i0 ∈ matched → phase1KeyGo txs i0 rest (ms, matched) = (ms, matched) := by
  intro rest
  induction rest with
  | nil => intro ms matched _; rfl
  | cons j rest ih =>
    intro ms matched hi0
    unfold phase1KeyGo
    rw [if_pos (Or.inl hi0)]
    exact ih ms matched hi0

theorem phase1KeyGo_matches_mono (txs : List Transaction) (i0 : ℕ) :
    ∀ (rest : List ℕ) (ms : List MatchResult) (matched : Finset ℕ),
      ∃ extra, (phase1KeyGo txs i0 rest (ms, matched)).1 = ms ++ extra := by
  intro rest
  induction rest with
  | nil => intro ms matched; exact ⟨[], by simp [phase1KeyGo]⟩
  | cons j rest ih =>
    intro ms matched
    unfold phase1KeyGo
    by_cases h1 : i0 ∈ matched ∨ j ∈ matched
    · rw [if_pos h1]; exact ih ms matched
    · rw [if_neg h1]
      by_cases h2 : (nthT txs i0).source_account = (nthT txs j).source_account
      · rw [if_pos h2]; exact ih ms matched
      · rw [if_neg h2]
        obtain ⟨extra, he⟩ := ih (ms ++ [⟨nthT txs i0, nthT txs j, "reference", 1⟩])
          (insert i0 (insert j matched))
        exact ⟨⟨nthT txs i0, nthT txs j, "reference", 1⟩ :: extra, by simp [he]⟩

theorem phase1Key_matches_mono (txs : List Transaction)
    (st : List MatchResult × Finset ℕ) (e : String × List ℕ) :
    ∃ extra, (phase1Key txs st e).1 = st.1 ++ extra := by
  unfold phase1Key
  match e with
  | (k, []) => exact ⟨[], by simp⟩
  | (k, [i]) => exact ⟨[], by simp⟩
  | (k, i0 :: j :: rest) => exact phase1KeyGo_matches_mono txs i0 (j :: rest) st.1 st.2

theorem phase1Fold_matches_mono (txs : List Transaction) :
    ∀ (entries : List (String × List ℕ)) (st : List MatchResult × Finset ℕ),
      ∃ extra, (entries.foldl (phase1Key txs) st).1 = st.1 ++ extra := by
  intro entries
  induction entries with
  | nil => intro st; exact ⟨[], by simp⟩
  | cons e tail ih =>
    intro st
    obtain ⟨x1, h1⟩ := phase1Key_matches_mono txs st e
    obtain ⟨x2, h2⟩ := ih (phase1Key txs st e)
    exact ⟨x1 ++ x2, by simp [List.foldl_cons, h2, h1]⟩

theorem phase1KeyGo_matched_mem (txs : List Transaction) (i0 : ℕ) :
    ∀ (rest : List ℕ) (ms : List MatchResult) (matched : Finset ℕ) (x : ℕ),
      x ∈ (phase1KeyGo txs i0 rest (ms, matched)).2 →
      x ∈ matched ∨ x = i0 ∨ x ∈ rest := by
  intro rest
  induction rest with
  | nil => intro ms matched x hx; exact Or.inl hx
  | cons j rest ih =>
    intro ms matched x hx
    unfold phase1KeyGo at hx
    by_cases h1 : i0 ∈ matched ∨ j ∈ matched
    · rw [if_pos h1] at hx
      rcases ih ms matched x hx with h | h | h
      · exact Or.inl h
      · exact Or.inr (Or.inl h)
      · exact Or.inr (Or.inr (List.mem_cons_of_mem j h))
    · rw [if_neg h1] at hx
      by_cases h2 : (nthT txs i0).source_account = (nthT txs j).source_account
      · rw [if_pos h2] at hx
        rcases ih ms matched x hx with h | h | h
        · exact Or.inl h
        · exact Or.inr (Or.inl h)
        · exact Or.inr (Or.inr (List.mem_cons_of_mem j h))
      · rw [if_neg h2] at hx
        rcases ih _ _ x hx with h | h | h
        · rcases Finset.mem_insert.mp h with h | h
          · exact Or.inr (Or.inl h)
          · rcases Finset.mem_insert.mp h with h | h
            · exact Or.inr (Or.inr (by simp [h]))
            · exact Or.inl h
        · exact Or.inr (Or.inl h)
        · exact Or.inr (Or.inr (List.mem_cons_of_mem j h))

theorem phase1Key_matched_mem (txs : List Transaction)
    (st : List MatchResult × Finset ℕ) (e : String × List ℕ) (x : ℕ)
    (hx : x ∈ (phase1Key txs st e).2) : x ∈ st.2 ∨ x ∈ e.2 := by
  unfold phase1Key at hx
  match e, hx with
  | (k, []), hx => exact Or.inl hx
  | (k, [i]), hx => exact Or.inl hx
  | (k, i0 :: j :: rest), hx =>
    rcases phase1KeyGo_matched_mem txs i0 (j :: rest) st.1 st.2 x hx with h | h | h
    · exact Or.inl h
    · exact Or.inr (by simp [h])
    · exact Or.inr (List.mem_cons_of_mem i0 h)

theorem phase1Fold_matched_mem (txs : List Transaction) :
    ∀ (entries : List (String × List ℕ)) (st : List MatchResult × Finset ℕ) (x : ℕ),
      x ∈ (entries.foldl (phase1Key txs) st).2 →
      x ∈ st.2 ∨ ∃ e ∈ entries, x ∈ e.2 := by
  intro entries
  induction entries with
  | nil => intro st x hx; exact Or.inl hx
  | cons e tail ih =>
    intro st x hx
    rw [List.foldl_cons] at hx
    rcases ih (phase1Key txs st e) x hx with h | ⟨e', he', hx'⟩
    · rcases phase1Key_matched_mem txs st e x h with h | h
      · exact Or.inl h
      · exact Or.inr ⟨e, List.mem_cons_self e tail, h⟩
    · exact Or.inr ⟨e', List.mem_cons_of_mem e he', hx'⟩

theorem phase1KeyGo_hit (txs : List Transaction) (i0 : ℕ) :
    ∀ (rest : List ℕ) (ms : List MatchResult) (matched : Finset ℕ) (j' : ℕ),
      i0 ∉ matched → (∀ j ∈ rest, j ∉ matched) →
      rest.find? (fun j =>
        decide ((nthT txs i0).source_account ≠ (nthT txs j).source_account)) = some j' →
      (phase1KeyGo txs i0 rest (ms, matched)).1 =
        ms ++ [⟨nthT txs i0, nthT txs j', "reference", 1⟩] := by
  intro rest
  induction rest with
  | nil => intro ms matched j' _ _ hfind; simp [List.find?] at hfind
  | cons j rest ih =>
    intro ms matched j' hi0 hrest hfind
    rw [List.find?_cons] at hfind
    by_cases h2 : (nthT txs i0).source_account = (nthT txs j).source_account
    · have hd : decide ((nthT txs i0).source_account ≠ (nthT txs j).source_account) = false := by
        simp [h2]
      rw [hd] at hfind
      unfold phase1KeyGo
      rw [if_neg (by push_neg; exact ⟨hi0, hrest j (List.mem_cons_self j rest)⟩), if_pos h2]
      exact ih ms matched j' hi0 (fun x hx => hrest x (List.mem_cons_of_mem j hx)) hfind
    · have hd : decide ((nthT txs i0).source_account ≠ (nthT txs j).source_account) = true := by
        simp [h2]
      rw [hd] at hfind
      have hjj : some j = some j' := hfind
      obtain rfl : j = j' := by injection hjj
      unfold phase1KeyGo
      rw [if_neg (by push_neg; exact ⟨hi0, hrest j (List.mem_cons_self j rest)⟩), if_neg h2]
      rw [phase1KeyGo_gone txs i0 rest _ _ (Finset.mem_insert_self i0 _)]

theorem refIndexInsert_keys (idx : List (String × List ℕ)) (key : String) (i : ℕ) :
    (refIndexInsert idx key i).map Prod.fst =
      if key ∈ idx.map Prod.fst then idx.map Prod.fst
      else idx.map Prod.fst ++ [key] := by
  induction idx with
  | nil => simp [refIndexInsert]
  | cons e rest ih =>
    match e with
    | (k, l) =>
      unfold refIndexInsert
      by_cases h : k = key
      · rw [if_pos h]
        simp [h]
      · rw [if_neg h]
        simp only [List.map_cons]
        rw [ih]
        by_cases hm : key ∈ rest.map Prod.fst
        · rw [if_pos hm, if_pos (by simp [hm])]
        · rw [if_neg hm, if_neg (by simp [hm, Ne.symm h])]
          simp

theorem refIndexInsert_keys_nodup (idx : List (String × List ℕ)) (key : String) (i : ℕ)
    (h : (idx.map Prod.fst).Nodup) : ((refIndexInsert idx key i).map Prod.fst).Nodup := by
  rw [refIndexInsert_keys]
  by_cases hm : key ∈ idx.map Prod.fst
  · rwa [if_pos hm]
  · rw [if_neg hm]
    simp [List.nodup_append, h, hm]

theorem refIndexStep_keys_nodup (txs : List Transaction)
    (acc : List (String × List ℕ)) (i : ℕ) (h : (acc.map Prod.fst).Nodup) :
    ((refIndexStep txs acc i).map Prod.fst).Nodup := by
  unfold refIndexStep
  have h1 : ((match (nthT txs i).reference_id with
      | some r => if r = "" then acc else refIndexInsert acc r i
      | none => acc).map Prod.fst).Nodup := by
    cases (nthT txs i).reference_id with
    | none => exact h
    | some r =>
      by_cases hr : r = ""
      · simpa [hr] using h
      · simpa [hr] using refIndexInsert_keys_nodup acc r i h
  cases (nthT txs i).counterpart_ref with
  | none => exact h1
  | some r =>
    by_cases hr : r = ""
    · simpa [hr] using h1
    · simpa [hr] using refIndexInsert_keys_nodup _ r i h1

theorem refIndex_keys_nodup (txs : List Transaction) :
    ((refIndex txs).map Prod.fst).Nodup := by
  unfold refIndex
  have key : ∀ (l : List ℕ) (acc : List (String × List ℕ)), (acc.map Prod.fst).Nodup →
      ((l.foldl (refIndexStep txs) acc).map Prod.fst).Nodup := by
    intro l
    induction l with
    | nil => intro acc h; exact h
    | cons i rest ih =>
      intro acc h
      rw [List.foldl_cons]
      exact ih _ (refIndexStep_keys_nodup txs acc i h)
  exact key (List.range txs.length) [] (by simp)

theorem entry_unique_of_keys_nodup :
    ∀ (idx : List (String × List ℕ)), (idx.map Prod.fst).Nodup →
      ∀ {k : String} {l1 l2 : List ℕ}, (k, l1) ∈ idx → (k, l2) ∈ idx → l1 = l2 := by
  intro idx
  induction idx with
  | nil => intro _ k l1 l2 h1 _; simp at h1
  | cons e rest ih =>
    intro hn k l1 l2 h1 h2
    simp only [List.map_cons, List.nodup_cons] at hn
    rcases List.mem_cons.mp h1 with h1 | h1 <;> rcases List.mem_cons.mp h2 with h2 | h2
    · exact congrArg Prod.snd (h1.trans h2.symm)
    · exfalso
      apply hn.1
      have hk : k ∈ List.map Prod.fst rest := List.mem_map_of_mem Prod.fst h2
      rw [← h1]
      exact hk
    · exfalso
      apply hn.1
      have hk : k ∈ List.map Prod.fst rest := List.mem_map_of_mem Prod.fst h1
      rw [← h2]
      exact hk
    · exact ih hn.2 h1 h2

theorem phase1Fold_hit (txs : List Transaction) (k : String) (i0 : ℕ) (rest : List ℕ)
    (j' : ℕ)
    (hfind : rest.find? (fun j =>
      decide ((nthT txs i0).source_account ≠ (nthT txs j).source_account)) = some j') :
    ∀ (entries : List (String × List ℕ)) (st : List MatchResult × Finset ℕ),
      (k, i0 :: rest) ∈ entries →
      (∀ e ∈ entries, e ≠ (k, i0 :: rest) → ∀ i ∈ e.2, ¬(i = i0 ∨ i ∈ rest)) →
      (∀ i, (i = i0 ∨ i ∈ rest) → i ∉ st.2) →
      (⟨nthT txs i0, nthT txs j', "reference", 1⟩ : MatchResult) ∈
        (entries.foldl (phase1Key txs) st).1 := by
  intro entries
  induction entries with
  | nil => intro st h _ _; simp at h
  | cons e tail ih =>
    intro st hmem hdisj hst
    rw [List.foldl_cons]
    by_cases he : e = (k, i0 :: rest)
    · subst he
      have hrest_ne : rest ≠ [] := by
        intro h; rw [h] at hfind; simp [List.find?] at hfind
      match rest, hfind, hrest_ne with
      | j :: rest', hfind, _ =>
        have hkey : phase1Key txs st (k, i0 :: j :: rest') =
            phase1KeyGo txs i0 (j :: rest') st := rfl
        have hi0 : i0 ∉ st.2 := hst i0 (Or.inl rfl)
        have hrest' : ∀ x ∈ j :: rest', x ∉ st.2 := fun x hx => hst x (Or.inr hx)
        have hhit := phase1KeyGo_hit txs i0 (j :: rest') st.1 st.2 j' hi0 hrest' hfind
        obtain ⟨extra, hx⟩ := phase1Fold_matches_mono txs tail (phase1Key txs st (k, i0 :: j :: rest'))
        rw [hx, hkey]
        rw [show phase1KeyGo txs i0 (j :: rest') st =
          phase1KeyGo txs i0 (j :: rest') (st.1, st.2) from by rw [Prod.mk.eta]] at *
        rw [hhit]
        simp
    · have hmem' : (k, i0 :: rest) ∈ tail := by
        rcases List.mem_cons.mp hmem with h | h
        · exact absurd h.symm he
        · exact h
      apply ih (phase1Key txs st e) hmem'
        (fun e' he' hne => hdisj e' (List.mem_cons_of_mem e he') hne)
      intro i hi hin
      rcases phase1Key_matched_mem txs st e i hin with h | h
      · exact hst i hi h
      · exact hdisj e (List.mem_cons_self e tail) he i h hi

/-- C4 (amended): Phase 1 forms at most one pair per reference key, and the
left element is always the key's FIRST listed index `i0`, not the first
unconsumed one: whenever a key's indices are shared with no other key (so no
earlier key can have consumed them), the pair produced for that key joins `i0`
with the first later listed index whose `source_account` differs from `i0`'s,
with `match_type = "reference"` and confidence `1.0`.  (The counterexample
shows the original wording — "the first two still-unconsumed indices are
paired" — fails when the key's earlier indices share one source.) -/
theorem phase1_pairs_key_head (txs : List Transaction) (k : String) (i0 j' : ℕ)
    (rest : List ℕ)
    (hk : (k, i0 :: rest) ∈ refIndex txs)
    (hdisj : ∀ e ∈ refIndex txs, e.1 ≠ k → ∀ i ∈ e.2, ¬(i = i0 ∨ i ∈ rest))
    (hfind : rest.find? (fun j =>
      decide ((nthT txs i0).source_account ≠ (nthT txs j).source_account)) = some j') :
    (⟨nthT txs i0, nthT txs j', "reference", 1⟩ : MatchResult) ∈ (phase_reference txs).1 := by
  have hnodup := refIndex_keys_nodup txs
  have hdisj' : ∀ e ∈ refIndex txs, e ≠ (k, i0 :: rest) → ∀ i ∈ e.2, ¬(i = i0 ∨ i ∈ rest) := by
    intro e he hne i hi
    by_cases hek : e.1 = k
    · exfalso
      apply hne
      obtain ⟨e1, e2⟩ := e
      simp only [] at hek
      subst hek
      have := entry_unique_of_keys_nodup (refIndex txs) hnodup he hk
      rw [this]
    · exact hdisj e he hek i hi
  have hfold := phase1Fold_hit txs k i0 rest j' hfind (refIndex txs) ([], ∅) hk hdisj'
    (by intro i _; simp)
  unfold phase_reference
  exact hfold

/-- Counterexample to C4 as stated: under key `"K"` the index list is
`[0, 1, 2]` and it contains two entries with different `source_account`s
(`0 ↦ A`, `2 ↦ B`), and no index is consumed beforehand, so the claim says the
first two still-unconsumed indices — `0` and `1` — are paired.  The code
instead pairs indices `0` and `2` (it skips the same-source index `1`), and
the transaction at index `1` is left in the unmatched remainder. -/
theorem phase1_first_two_unconsumed_refuted :
    refIndex [ceTx0, ceTx1, ceTx2] = [("K", [0, 1, 2])] ∧
    (nthT [ceTx0, ceTx1, ceTx2] 0).source_account ≠
      (nthT [ceTx0, ceTx1, ceTx2] 2).source_account ∧
    (phase_reference [ceTx0, ceTx1, ceTx2]).1 = [⟨ceTx0, ceTx2, "reference", 1⟩] ∧
    (phase_reference [ceTx0, ceTx1, ceTx2]).2 = [ceTx1] := by
  refine ⟨by decide, by decide, ?_, ?_⟩ <;> decide

/-- Witness for C4 (amended) on the counterexample input: the key `"K"`'s
first index `0` is paired with index `2`, the first later index with a
different source. -/
theorem phase1_pairs_key_head_witness :
    ("K", [0, 1, 2]) ∈ refIndex [ceTx0, ceTx1, ceTx2] ∧
    [1, 2].find? (fun j => decide ((nthT [ceTx0, ceTx1, ceTx2] 0).source_account ≠
      (nthT [ceTx0, ceTx1, ceTx2] j).source_account)) = some 2 ∧
    (⟨nthT [ceTx0, ceTx1, ceTx2] 0, nthT [ceTx0, ceTx1, ceTx2] 2, "reference", 1⟩ :
      MatchResult) ∈ (phase_reference [ceTx0, ceTx1, ceTx2]).1 :=
  ⟨by decide, by decide,
   phase1_pairs_key_head [ceTx0, ceTx1, ceTx2] "K" 0 2 [1, 2] (by decide)
     (by decide) (by decide)⟩

/- ===================== Matching Engine consumption accounting ===================== -/

theorem pairElems_append (l1 l2 : List MatchResult) :
    pairElems (l1 ++ l2) = pairElems l1 ++ pairElems l2 := by
  induction l1 with
  | nil => simp [pairElems]
  | cons m rest ih => simp [pairElems] at ih ⊢; rw [ih]

theorem engineInv_empty (txs : List Transaction) : engineInv txs ([], ∅) := by
  constructor
  · simp [pairElems]
  · simp

theorem engineInv_insert (txs : List Transaction) (st : List MatchResult × Finset ℕ)
    (hinv : engineInv txs st) (a b : ℕ) (ha : a ∉ st.2) (hb : b ∉ st.2) (hab : a ≠ b)
    (han : a < txs.length) (hbn : b < txs.length) (mt : String) (c : ℚ) :
    engineInv txs (st.1 ++ [⟨nthT txs a, nthT txs b, mt, c⟩],
      insert a (insert b st.2)) := by
  constructor
  · have hbv : (insert b st.2).val = b ::ₘ st.2.val := Finset.insert_val_of_not_mem hb
    have hav : (insert a (insert b st.2)).val = a ::ₘ (insert b st.2).val :=
      Finset.insert_val_of_not_mem (by simp [Finset.mem_insert, hab, ha])
    show (↑(pairElems (st.1 ++ [⟨nthT txs a, nthT txs b, mt, c⟩])) : Multiset Transaction) = _
    rw [pairElems_append, hav, hbv]
    simp only [Multiset.map_cons]
    have hps : pairElems [(⟨nthT txs a, nthT txs b, mt, c⟩ : MatchResult)] =
        [nthT txs a, nthT txs b] := rfl
    rw [hps, ← hinv.1]
    have : (nthT txs a ::ₘ nthT txs b ::ₘ ↑(pairElems st.1) : Multiset Transaction) =
        ↑(nthT txs a :: nthT txs b :: pairElems st.1) := by
      simp [Multiset.cons_coe]
    rw [this, Multiset.coe_eq_coe]
    exact List.perm_append_comm
  · intro x hx
    simp only [Finset.mem_insert] at hx
    rcases hx with rfl | rfl | hx
    · exact Finset.mem_range.mpr han
    · exact Finset.mem_range.mpr hbn
    · exact hinv.2 hx

theorem map_nthT_range (txs : List Transaction) :
    (List.range txs.length).map (nthT txs) = txs := by
  apply List.ext_getElem (by simp)
  intro i h1 h2
  simp only [List.getElem_map, List.getElem_range]
  unfold nthT
  rw [List.getD_eq_getElem _ _ h2]

theorem matched_split (n : ℕ) (s : Finset ℕ) (hs : s ⊆ Finset.range n) :
    s.val + (↑((List.range n).filter (fun i => decide (i ∉ s))) : Multiset ℕ) =
      ↑(List.range n) := by
  have h0 : ((Finset.range n).val : Multiset ℕ) = ↑(List.range n) := by
    rw [Finset.range_val]
    rfl
  have h1 : s.val = Multiset.filter (fun i => i ∈ s) ↑(List.range n) := by
    rw [← h0, ← Finset.filter_val]
    congr 1
    rw [Finset.filter_mem_eq_inter]
    exact (Finset.inter_eq_right.mpr hs).symm
  have h2 : (↑((List.range n).filter (fun i => decide (i ∉ s))) : Multiset ℕ) =
      Multiset.filter (fun i => i ∉ s) ↑(List.range n) := by
    simp [Multiset.filter_coe]
  rw [h1, h2]
  exact Multiset.filter_add_not _ _

theorem phase_output_perm (txs : List Transaction) (st : List MatchResult × Finset ℕ)
    (hinv : engineInv txs st) :
    (pairElems st.1 ++
      ((List.range txs.length).filter (fun i => decide (i ∉ st.2))).map (nthT txs)).Perm
      txs := by
  rw [← Multiset.coe_eq_coe]
  push_cast [← Multiset.coe_add]
  calc (↑(pairElems st.1) +
        ↑(((List.range txs.length).filter (fun i => decide (i ∉ st.2))).map (nthT txs)) :
          Multiset Transaction)
      = Multiset.map (nthT txs) st.2.val +
        Multiset.map (nthT txs) ↑((List.range txs.length).filter (fun i => decide (i ∉ st.2))) := by
        rw [hinv.1, Multiset.map_coe]
    _ = Multiset.map (nthT txs)
        (st.2.val + ↑((List.range txs.length).filter (fun i => decide (i ∉ st.2)))) := by
        rw [Multiset.map_add]
    _ = Multiset.map (nthT txs) ↑(List.range txs.length) := by
        rw [matched_split txs.length st.2 hinv.2]
    _ = ↑((List.range txs.length).map (nthT txs)) := by rw [Multiset.map_coe]
    _ = ↑txs := by rw [map_nthT_range]

theorem refIndexInsert_indices (idx : List (String × List ℕ)) (key : String) (i : ℕ) :
    ∀ e ∈ refIndexInsert idx key i, ∀ x ∈ e.2, (∃ e' ∈ idx, x ∈ e'.2) ∨ x = i := by
  induction idx with
  | nil =>
    intro e he x hx
    simp [refIndexInsert] at he
    subst he
    simp at hx
    exact Or.inr hx
  | cons hd rest ih =>
    intro e he x hx
    match hd with
    | (k, l) =>
      unfold refIndexInsert at he
      by_cases h : k = key
      · rw [if_pos h] at he
        rcases List.mem_cons.mp he with rfl | he
        · simp only [] at hx
          rcases List.mem_append.mp hx with hx | hx
          · exact Or.inl ⟨(k, l), List.mem_cons_self _ _, hx⟩
          · exact Or.inr (by simpa using hx)
        · exact Or.inl ⟨e, List.mem_cons_of_mem _ he, hx⟩
      · rw [if_neg h] at he
        rcases List.mem_cons.mp he with rfl | he
        · exact Or.inl ⟨(k, l), List.mem_cons_self _ _, hx⟩
        · rcases ih e he x hx with ⟨e', he', hx'⟩ | hx'
          · exact Or.inl ⟨e', List.mem_cons_of_mem _ he', hx'⟩
          · exact Or.inr hx'

theorem refIndexStep_indices (txs : List Transaction) (acc : List (String × List ℕ))
    (i : ℕ) (P : ℕ → Prop) (hacc : ∀ e ∈ acc, ∀ x ∈ e.2, P x) (hi : P i) :
    ∀ e ∈ refIndexStep txs acc i, ∀ x ∈ e.2, P x := by
  unfold refIndexStep
  have h1 : ∀ e ∈ (match (nthT txs i).reference_id with
      | some r => if r = "" then acc else refIndexInsert acc r i
      | none => acc), ∀ x ∈ e.2, P x := by
    cases (nthT txs i).reference_id with
    | none => exact hacc
    | some r =>
      by_cases hr : r = ""
      · simpa [hr] using hacc
      · simp only [if_neg hr]
        intro e he x hx
        rcases refIndexInsert_indices acc r i e he x hx with ⟨e', he', hx'⟩ | rfl
        · exact hacc e' he' x hx'
        · exact hi
  cases (nthT txs i).counterpart_ref with
  | none => exact h1
  | some r =>
    by_cases hr : r = ""
    · simpa [hr] using h1
    · simp only [if_neg hr]
      intro e he x hx
      rcases refIndexInsert_indices _ r i e he x hx with ⟨e', he', hx'⟩ | rfl
      · exact h1 e' he' x hx'
      · exact hi

theorem refIndex_indices_lt (txs : List Transaction) :
    ∀ e ∈ refIndex txs, ∀ x ∈ e.2, x < txs.length := by
  unfold refIndex
  have key : ∀ (l : List ℕ) (acc : List (String × List ℕ)),
      (∀ e ∈ acc, ∀ x ∈ e.2, x < txs.length) → (∀ i ∈ l, i < txs.length) →
      ∀ e ∈ l.foldl (refIndexStep txs) acc, ∀ x ∈ e.2, x < txs.length := by
    intro l
    induction l with
    | nil => intro acc hacc _; exact hacc
    | cons i rest ih =>
      intro acc hacc hl
      rw [List.foldl_cons]
      exact ih _ (refIndexStep_indices txs acc i _ hacc (hl i (List.mem_cons_self _ _)))
        (fun x hx => hl x (List.mem_cons_of_mem _ hx))
  exact key (List.range txs.length) [] (by simp) (by simp)

theorem phase1KeyGo_inv (txs : List Transaction) (i0 : ℕ) (hi0 : i0 < txs.length) :
    ∀ (rest : List ℕ) (ms : List MatchResult) (matched : Finset ℕ),
      (∀ j ∈ rest, j < txs.length) → engineInv txs (ms, matched) →
      engineInv txs (phase1KeyGo txs i0 rest (ms, matched)) := by
  intro rest
  induction rest with
  | nil => intro ms matched _ hinv; exact hinv
  | cons j rest ih =>
    intro ms matched hb hinv
    unfold phase1KeyGo
    by_cases h1 : i0 ∈ matched ∨ j ∈ matched
    · rw [if_pos h1]
      exact ih ms matched (fun x hx => hb x (List.mem_cons_of_mem _ hx)) hinv
    · rw [if_neg h1]
      push_neg at h1
      by_cases h2 : (nthT txs i0).source_account = (nthT txs j).source_account
      · rw [if_pos h2]
        exact ih ms matched (fun x hx => hb x (List.mem_cons_of_mem _ hx)) hinv
      · rw [if_neg h2]
        have hij : i0 ≠ j := fun he => h2 (by rw [he])
        apply ih _ _ (fun x hx => hb x (List.mem_cons_of_mem _ hx))
        exact engineInv_insert txs (ms, matched) hinv i0 j h1.1 h1.2 hij hi0
          (hb j (List.mem_cons_self _ _)) "reference" 1

theorem phase1Key_inv (txs : List Transaction) (st : List MatchResult × Finset ℕ)
    (e : String × List ℕ) (he : ∀ x ∈ e.2, x < txs.length)
    (hinv : engineInv txs st) : engineInv txs (phase1Key txs st e) := by
  unfold phase1Key
  match e, he with
  | (k, []), _ => exact hinv
  | (k, [i]), _ => exact hinv
  | (k, i0 :: j :: rest), he =>
    rw [show st = (st.1, st.2) from (Prod.mk.eta).symm] at hinv
    exact phase1KeyGo_inv txs i0 (he i0 (List.mem_cons_self _ _)) (j :: rest) st.1 st.2
      (fun x hx => he x (List.mem_cons_of_mem _ hx)) hinv

theorem phase1Fold_inv (txs : List Transaction) :
    ∀ (entries : List (String × List ℕ)) (st : List MatchResult × Finset ℕ),
      (∀ e ∈ entries, ∀ x ∈ e.2, x < txs.length) → engineInv txs st →
      engineInv txs (entries.foldl (phase1Key txs) st) := by
  intro entries
  induction entries with
  | nil => intro st _ hinv; exact hinv
  | cons e tail ih =>
    intro st hb hinv
    rw [List.foldl_cons]
    exact ih _ (fun e' he' => hb e' (List.mem_cons_of_mem _ he'))
      (phase1Key_inv txs st e (hb e (List.mem_cons_self _ _)) hinv)

theorem phase_reference_perm (txs : List Transaction) :
    (pairElems (phase_reference txs).1 ++ (phase_reference txs).2).Perm txs := by
  unfold phase_reference
  exact phase_output_perm txs _
    (phase1Fold_inv txs (refIndex txs) ([], ∅) (refIndex_indices_lt txs)
      (engineInv_empty txs))

theorem phase2Go_inv (cfg : MatchConfig) (txs : List Transaction) (bank : List ℕ)
    (hbank : ∀ b ∈ bank, b < txs.length ∧
      strTruthy (nthT txs b).payment_method = false) :
    ∀ (plist : List ℕ) (st : List MatchResult × Finset ℕ),
      (∀ p ∈ plist, p < txs.length ∧ strTruthy (nthT txs p).payment_method = true) →
      engineInv txs st → engineInv txs (phase2Go cfg txs bank plist st) := by
  intro plist
  induction plist with
  | nil => intro st _ hinv; exact hinv
  | cons pi rest ih =>
    intro st hp hinv
    rw [show st = (st.1, st.2) from (Prod.mk.eta).symm]
    unfold phase2Go
    by_cases h1 : pi ∈ st.2
    · rw [if_pos h1]
      exact ih _ (fun x hx => hp x (List.mem_cons_of_mem _ hx)) (by simpa using hinv)
    · rw [if_neg h1]
      cases hfind : bank.find? (fun bi => decide (bi ∉ st.2) && phase2Cond cfg txs pi bi) with
      | none =>
        exact ih _ (fun x hx => hp x (List.mem_cons_of_mem _ hx)) (by simpa using hinv)
      | some bi =>
        have hbimem := List.mem_of_find?_eq_some hfind
        have hbipred := List.find?_some hfind
        rw [Bool.and_eq_true] at hbipred
        have hbi : bi ∉ st.2 := by simpa using hbipred.1
        have hne : pi ≠ bi := by
          intro he
          have ht := (hp pi (List.mem_cons_self _ _)).2
          have hf := (hbank bi hbimem).2
          rw [he] at ht
          rw [ht] at hf
          exact Bool.noConfusion hf
        apply ih _ (fun x hx => hp x (List.mem_cons_of_mem _ hx))
        exact engineInv_insert txs (st.1, st.2) (by simpa using hinv) pi bi h1 hbi hne
          (hp pi (List.mem_cons_self _ _)).1 (hbank bi hbimem).1 "intermediary" (9/10)

theorem phase_intermediary_perm (cfg : MatchConfig) (txs : List Transaction) :
    (pairElems (phase_intermediary cfg txs).1 ++ (phase_intermediary cfg txs).2).Perm txs := by
  unfold phase_intermediary
  apply phase_output_perm txs _
  apply phase2Go_inv cfg txs _ ?_ _ _ ?_ (engineInv_empty txs)
  · intro b hb
    rw [List.mem_filter] at hb
    exact ⟨by simpa using hb.1, by simpa using hb.2⟩
  · intro p hp
    rw [List.mem_filter] at hp
    exact ⟨by simpa using hp.1, hp.2⟩

theorem phase3Go_inv (cfg : MatchConfig) (txs : List Transaction) :
    ∀ (ilist : List ℕ) (st : List MatchResult × Finset ℕ),
      (∀ i ∈ ilist, i < txs.length) → engineInv txs st →
      engineInv txs (phase3Go cfg txs txs.length ilist st) := by
  intro ilist
  induction ilist with
  | nil => intro st _ hinv; exact hinv
  | cons i rest ih =>
    intro st hl hinv
    rw [show st = (st.1, st.2) from (Prod.mk.eta).symm]
    unfold phase3Go
    by_cases h1 : i ∈ st.2
    · rw [if_pos h1]
      exact ih _ (fun x hx => hl x (List.mem_cons_of_mem _ hx)) (by simpa using hinv)
    · rw [if_neg h1]
      cases hfind : (List.range' (i + 1) (txs.length - (i + 1))).find?
          (fun j => decide (j ∉ st.2) && phase3Cond cfg txs i j) with
      | none =>
        exact ih _ (fun x hx => hl x (List.mem_cons_of_mem _ hx)) (by simpa using hinv)
      | some j =>
        have hjmem := List.mem_of_find?_eq_some hfind
        have hjpred := List.find?_some hfind
        rw [Bool.and_eq_true] at hjpred
        have hj : j ∉ st.2 := by simpa using hjpred.1
        rw [List.mem_range'_1] at hjmem
        have hin : i < txs.length := hl i (List.mem_cons_self _ _)
        have hjn : j < txs.length := by omega
        have hne : i ≠ j := by omega
        apply ih _ (fun x hx => hl x (List.mem_cons_of_mem _ hx))
        exact engineInv_insert txs (st.1, st.2) (by simpa using hinv) i j h1 hj hne hin hjn
          "fuzzy" (phase3Sim cfg txs i j)

theorem phase_fuzzy_perm (cfg : MatchConfig) (txs : List Transaction) :
    (pairElems (phase_fuzzy cfg txs).1 ++ (phase_fuzzy cfg txs).2).Perm txs := by
  unfold phase_fuzzy
  exact phase_output_perm txs _
    (phase3Go_inv cfg txs (List.range txs.length) ([], ∅) (by simp)
      (engineInv_empty txs))

/-- C7: the engine consumes each transaction occurrence at most once across
all three phases: the members of all matched pairs together with the final
unmatched list are a permutation of the input, so a transaction occurrence is
in exactly one pair or in the unmatched remainder, and the unmatched list is
exactly the transactions in no pair. -/
theorem engine_consumes_once (cfg : MatchConfig) (txs : List Transaction) :
    (pairElems (engineMatch cfg txs).matched ++ (engineMatch cfg txs).unmatched).Perm
      txs := by
  unfold engineMatch
  simp only []
  rw [pairElems_append, pairElems_append]
  have h3 := phase_fuzzy_perm cfg (phase_intermediary cfg (phase_reference txs).2).2
  have h2 := phase_intermediary_perm cfg (phase_reference txs).2
  have h1 := phase_reference_perm txs
  have hassoc : pairElems (phase_reference txs).1 ++
      pairElems (phase_intermediary cfg (phase_reference txs).2).1 ++
      pairElems (phase_fuzzy cfg (phase_intermediary cfg (phase_reference txs).2).2).1 ++
      (phase_fuzzy cfg (phase_intermediary cfg (phase_reference txs).2).2).2 =
      pairElems (phase_reference txs).1 ++
      (pairElems (phase_intermediary cfg (phase_reference txs).2).1 ++
      (pairElems (phase_fuzzy cfg (phase_intermediary cfg (phase_reference txs).2).2).1 ++
      (phase_fuzzy cfg (phase_intermediary cfg (phase_reference txs).2).2).2)) := by
    simp [List.append_assoc]
  rw [hassoc]
  exact (List.Perm.append_left _ ((List.Perm.append_left _ h3).trans h2)).trans h1

/- ===================== Payment Account Resolver lemmas ===================== -/

theorem splitFirstChar_post_length (c : Char) :
    ∀ (m pre post : List Char), splitFirstChar c m = some (pre, post) →
      post.length < m.length := by
  intro m
  induction m with
  | nil => intro pre post h; simp [splitFirstChar] at h
  | cons x rest ih =>
    intro pre post h
    unfold splitFirstChar at h
    by_cases hx : x = c
    · rw [if_pos hx] at h
      have hp : rest = post := congrArg Prod.snd (Option.some.inj h)
      rw [← hp]
      simp
    · rw [if_neg hx] at h
      cases hsp : splitFirstChar c rest with
      | none => rw [hsp] at h; exact Option.noConfusion h
      | some pp =>
        match pp, hsp with
        | (pre1, post1), hsp =>
          rw [hsp] at h
          have hp : post1 = post := congrArg Prod.snd (Option.some.inj h)
          have hlt := ih pre1 post1 hsp
          rw [← hp]
          simp only [List.length_cons]
          omega

theorem dropWhile_length_le (p : Char → Bool) (l : List Char) :
    (l.dropWhile p).length ≤ l.length := by
  induction l with
  | nil => simp
  | cons c rest ih =>
    rw [List.dropWhile_cons]
    by_cases h : p c
    · simp only [if_pos h, List.length_cons]
      omega
    · simp [if_neg h]

theorem trimChars_length_le (l : List Char) : (trimChars l).length ≤ l.length := by
  unfold trimChars
  have h1 : (l.dropWhile Char.isWhitespace).length ≤ l.length :=
    dropWhile_length_le _ _
  have h2 : ((l.dropWhile Char.isWhitespace).reverse.dropWhile Char.isWhitespace).length ≤
      (l.dropWhile Char.isWhitespace).reverse.length := dropWhile_length_le _ _
  simp only [List.length_reverse] at h2 ⊢
  omega

theorem resolveToClearingAux_fuel (platform : String) :
    ∀ (f g : ℕ) (m : List Char), m.length < f → m.length < g →
      resolveToClearingAux platform f m = resolveToClearingAux platform g m := by
  intro f
  induction f with
  | zero => intro g m hf _; omega
  | succ f ih =>
    intro g m hf hg
    cases g with
    | zero => omega
    | succ g =>
      unfold resolveToClearingAux
      by_cases h0 : m = [] ∨ m = ['/']
      · rw [if_pos h0, if_pos h0]
      · rw [if_neg h0, if_neg h0]
        split
        · rfl
        · split
          · split
            · rfl
            · rename_i hsp hch
              rename_i pre post heq
              have hlt := splitFirstChar_post_length '-' m pre post heq
              have hle := trimChars_length_le post
              exact ih g (trimChars post) (by omega) (by omega)
          · rfl

theorem resolveAccountAux_fuel (fallback dct : String) :
    ∀ (f g : ℕ) (m : List Char), m.length < f → m.length < g →
      resolveAccountAux fallback dct f m = resolveAccountAux fallback dct g m := by
  intro f
  induction f with
  | zero => intro g m hf _; omega
  | succ f ih =>
    intro g m hf hg
    cases g with
    | zero => omega
    | succ g =>
      unfold resolveAccountAux
      by_cases h0 : m = []
      · rw [if_pos h0, if_pos h0]
      · rw [if_neg h0, if_neg h0]
        split
        · rfl
        · split
          · rename_i pre post heq
            have hlt := splitFirstChar_post_length '-' m pre post heq
            have hle := trimChars_length_le post
            exact ih g (trimChars post) (by omega) (by omega)
          · rfl

/-- C5 (amended): only the clearing resolver `resolve_payment_to_clearing`
inspects the left part of a composite `left-right` payment string: when the
string reaches its composite step (non-empty, not `"/"`, no platform-internal
prefix) and contains `-`, a left part containing a known channel identifier
resolves to `Assets:Clearing:<platform>:<channel>`, and otherwise it recurses
into the right part.  `resolve_payment_account`, by contrast, recurses into
the right part unconditionally, never inspecting the left part. -/
theorem resolver_split_behavior (platform fallback dct : String) (m pre post : List Char)
    (hm0 : m ≠ []) (hm1 : m ≠ ['/'])
    (hsp : splitFirstChar '-' m = some (pre, post)) :
    ((sortByKeyLenDesc (PLATFORM_INTERNAL_ACCOUNTS platform)).find?
        (fun e => e.1.data.isPrefixOf m) = none →
      (∀ ch, findChannel (trimChars pre) = some ch →
        resolveToClearingChars platform m = "Assets:Clearing:" ++ platform ++ ":" ++ ch) ∧
      (findChannel (trimChars pre) = none →
        resolveToClearingChars platform m =
          resolveToClearingChars platform (trimChars post))) ∧
    ((sortByKeyLenDesc WALLET_ACCOUNTS).find? (fun e => e.1.data.isPrefixOf m) = none →
      resolveAccountChars fallback dct m =
        resolveAccountChars fallback dct (trimChars post)) := by
  have hlt := splitFirstChar_post_length '-' m pre post hsp
  have hle := trimChars_length_le post
  constructor
  · intro hint
    have hstep : resolveToClearingChars platform m =
        (match findChannel (trimChars pre) with
         | some ch => "Assets:Clearing:" ++ platform ++ ":" ++ ch
         | none => resolveToClearingAux platform m.length (trimChars post)) := by
      conv_lhs => unfold resolveToClearingChars resolveToClearingAux
      rw [if_neg (by push_neg; exact ⟨hm0, hm1⟩), hint, hsp]
    constructor
    · intro ch hch
      rw [hstep, hch]
    · intro hch
      rw [hstep, hch]
      conv_rhs => unfold resolveToClearingChars
      exact resolveToClearingAux_fuel platform m.length ((trimChars post).length + 1)
        (trimChars post) (by omega) (by omega)
  · intro hint
    have hstep : resolveAccountChars fallback dct m =
        resolveAccountAux fallback dct m.length (trimChars post) := by
      conv_lhs => unfold resolveAccountChars resolveAccountAux
      rw [if_neg hm0, hint, hsp]
    rw [hstep]
    conv_rhs => unfold resolveAccountChars
    exact resolveAccountAux_fuel fallback dct m.length ((trimChars post).length + 1)
      (trimChars post) (by omega) (by omega)

/-- Counterexample to C5 as stated: for the composite payment string
`"微信-招商银行储蓄卡"` the left part `"微信"` matches the known payment-channel
identifier for channel `WX`, so the claim says the Payment Account Resolver
returns `<platform-clearing-root>:<channel>`.  `resolve_payment_account`
(`preciouss.importers.resolve`, the resolver the claim's first source cites)
instead ignores the left part and resolves the right part to
`"Assets:Bank:CMB"`, which is not under any clearing root; only the separate
clearing resolver `resolve_payment_to_clearing` exhibits the claimed
behaviour. -/
theorem resolver_payment_account_ignores_left :
    findChannel (trimChars "微信".data) = some "WX" ∧
    resolve_payment_account "微信-招商银行储蓄卡" "FALLBACK" "Liabilities:CreditCard" =
      "Assets:Bank:CMB" ∧
    ("Assets:Clearing:".data.isPrefixOf "Assets:Bank:CMB".data) = false ∧
    resolve_payment_to_clearing "微信-招商银行储蓄卡" "JD" = "Assets:Clearing:JD:WX" := by
  refine ⟨?_, ?_, ?_, ?_⟩ <;> decide

/-- Witness for C5 (amended) on the composite string `"微信-招商银行储蓄卡"`. -/
theorem resolver_split_behavior_witness :
    splitFirstChar '-' "微信-招商银行储蓄卡".data =
      some ("微信".data, "招商银行储蓄卡".data) ∧
    resolveToClearingChars "JD" "微信-招商银行储蓄卡".data = "Assets:Clearing:JD:WX" ∧
    resolveAccountChars "FALLBACK" "Liabilities:CreditCard" "微信-招商银行储蓄卡".data =
      resolveAccountChars "FALLBACK" "Liabilities:CreditCard"
        (trimChars "招商银行储蓄卡".data) := by
  have h := resolver_split_behavior "JD" "FALLBACK" "Liabilities:CreditCard"
    "微信-招商银行储蓄卡".data "微信".data "招商银行储蓄卡".data
    (by decide) (by decide) (by decide)
  exact ⟨by decide, (h.1 (by decide)).1 "WX" (by decide), h.2 (by decide)⟩

/- ===================== Clearing DFS lemmas ===================== -/

theorem matchClearing_mem (seed : Transaction) (cands : List (ℕ × Transaction))
    (c : ℕ × Transaction) (h : matchClearing seed cands = some c) : c ∈ cands := by
  unfold matchClearing at h
  cases hf : cands.find? (fun c => refsIntersect seed c.2) with
  | some c0 =>
    rw [hf] at h
    obtain rfl : c0 = c := Option.some.inj h
    exact List.mem_of_find?_eq_some hf
  | none =>
    rw [hf] at h
    have := List.mem_of_find?_eq_some h
    exact (List.mem_insertionSort _).mp this

theorem counterCandidates_lt (txs : List Transaction) (acct : String) (i : ℕ)
    (h : i ∈ counterCandidates txs acct) : i < txs.length := by
  unfold counterCandidates at h
  have := (List.mem_filter.mp h).1
  simpa using this

theorem dfsGo_matched_untagged (txs : List Transaction) (impPresent : ℕ → Bool)
    (linkName : String) (fuel : ℕ) (links : ℕ → Option String) (cur : ℕ)
    (mc : ℕ × Transaction)
    (h : matchClearing (nthT txs cur)
      (((counterCandidates txs (nthT txs cur).source_account).filter
        (fun i => !strTruthy (links i))).map (fun i => (i, nthT txs i))) = some mc) :
    strTruthy (links mc.1) = false ∧ mc.1 < txs.length := by
  have hmem := matchClearing_mem _ _ _ h
  rw [List.mem_map] at hmem
  obtain ⟨j, hj, hje⟩ := hmem
  have hj1 := List.mem_filter.mp hj
  have : mc.1 = j := by rw [← hje]
  rw [this]
  exact ⟨by simpa using hj1.2, counterCandidates_lt txs _ j hj1.1⟩

/-- Links are never overwritten by the DFS: a transaction already carrying a
Python-truthy link keeps it, because candidates are drawn only from the
untagged pool. -/
theorem dfsGo_preserves_links (txs : List Transaction) (impPresent : ℕ → Bool)
    (linkName : String) :
    ∀ (fuel : ℕ) (links : ℕ → Option String) (cur i : ℕ),
      strTruthy (links i) = true → (dfsGo txs impPresent linkName fuel links cur).1 i = links i := by
  intro fuel
  induction fuel with
  | zero => intro links cur i _; rfl
  | succ fuel ih =>
    intro links cur i hi
    unfold dfsGo
    by_cases hc : isClearingAccount (nthT txs cur).source_account
    · simp only [hc, Bool.not_true, Bool.false_eq_true, if_false]
      by_cases hce : ((counterCandidates txs (nthT txs cur).source_account).filter
          (fun i => !strTruthy (links i))).isEmpty
      · rw [if_pos hce]
      · rw [if_neg hce]
        by_cases himp : impPresent cur
        · simp only [himp, Bool.not_true, Bool.false_eq_true, if_false]
          cases hm : matchClearing (nthT txs cur)
              (((counterCandidates txs (nthT txs cur).source_account).filter
                (fun i => !strTruthy (links i))).map (fun i => (i, nthT txs i))) with
          | none => rfl
          | some mc =>
            simp only []
            have hmc := dfsGo_matched_untagged txs impPresent linkName fuel links cur mc hm
            have hne : i ≠ mc.1 := by
              intro he
              rw [he, hmc.1] at hi
              exact Bool.noConfusion hi
            have hupd : Function.update links mc.1 (some linkName) i = links i :=
              Function.update_noteq hne _ _
            rw [ih (Function.update links mc.1 (some linkName)) mc.1 i (by rw [hupd]; exact hi)]
            exact hupd
        · simp only [himp, Bool.not_false, if_true]
    · simp only [hc, Bool.not_false, if_true]

/-- Links are never overwritten by the full linking pass either. -/
theorem assignGo_preserves_links (txs : List Transaction) (impPresent : ℕ → Bool) :
    ∀ (l : List ℕ) (st : (ℕ → Option String) × ℕ × ℕ × ℕ) (i : ℕ),
      strTruthy (st.1 i) = true → (assignGo txs impPresent l st).1 i = st.1 i := by
  intro l
  induction l with
  | nil => intro st i _; rfl
  | cons j rest ih =>
    intro st i hi
    obtain ⟨links, counter, linked, unmatched⟩ := st
    unfold assignGo
    by_cases ht : isTerminalExpense (nthT txs j)
    · simp only [ht, Bool.not_true, Bool.false_eq_true, if_false]
      by_cases hl : strTruthy (links j)
      · rw [if_pos hl]
        exact ih _ i hi
      · rw [if_neg hl]
        have hne : i ≠ j := by
          intro he
          rw [he] at hi
          rw [hi] at hl
          exact hl rfl
        have hupd : Function.update links j (some (clrName counter)) i = links i :=
          Function.update_noteq hne _ _
        have hdfs := dfsGo_preserves_links txs impPresent (clrName counter)
          (txs.length + 1) (Function.update links j (some (clrName counter))) j i
          (by rw [hupd]; exact hi)
        have := ih ((dfsGo txs impPresent (clrName counter) (txs.length + 1)
            (Function.update links j (some (clrName counter))) j).1,
          counter + 1, linked + 1 + (dfsGo txs impPresent (clrName counter) (txs.length + 1)
            (Function.update links j (some (clrName counter))) j).2,
          unmatched + if (dfsGo txs impPresent (clrName counter) (txs.length + 1)
            (Function.update links j (some (clrName counter))) j).2 = 0 then 1 else 0) i
          (by simpa [hdfs, hupd] using hi)
        rw [this]
        simp only []
        rw [hdfs, hupd]
    · simp only [ht, Bool.not_false, if_true]
      exact ih _ i hi

theorem filter_length_le_of_imp {α : Type} (p q : α → Bool)
    (hpq : ∀ x, p x = true → q x = true) :
    ∀ l : List α, (l.filter p).length ≤ (l.filter q).length := by
  intro l
  induction l with
  | nil => simp
  | cons a rest ih =>
    rw [List.filter_cons, List.filter_cons]
    by_cases hp : p a
    · rw [if_pos hp, if_pos (hpq a hp)]
      simpa using ih
    · rw [if_neg (by simpa using hp)]
      by_cases hq : q a
      · rw [if_pos hq]
        simp only [List.length_cons]
        omega
      · rw [if_neg (by simpa using hq)]
        exact ih

theorem filter_length_lt_of_imp {α : Type} (p q : α → Bool)
    (hpq : ∀ x, p x = true → q x = true) :
    ∀ (l : List α) (x0 : α), x0 ∈ l → q x0 = true → p x0 = false →
      (l.filter p).length < (l.filter q).length := by
  intro l
  induction l with
  | nil => intro x0 h; simp at h
  | cons a rest ih =>
    intro x0 hx0 hq0 hp0
    rw [List.filter_cons, List.filter_cons]
    rcases List.mem_cons.mp hx0 with rfl | hx0
    · rw [if_neg (by simp [hp0]), if_pos hq0]
      simp only [List.length_cons]
      have := filter_length_le_of_imp p q hpq rest
      omega
    · by_cases hp : p a
      · rw [if_pos hp, if_pos (hpq a hp)]
        simp only [List.length_cons]
        have := ih x0 hx0 hq0 hp0
        omega
      · rw [if_neg (by simpa using hp)]
        by_cases hq : q a
        · rw [if_pos hq]
          simp only [List.length_cons]
          have := filter_length_le_of_imp p q hpq rest
          have := ih x0 hx0 hq0 hp0
          omega
        · rw [if_neg (by simpa using hq)]
          exact ih x0 hx0 hq0 hp0

theorem untaggedCount_update_lt (txs : List Transaction) (links : ℕ → Option String)
    (j : ℕ) (name : String) (hname : name ≠ "") (hj : j < txs.length)
    (hju : strTruthy (links j) = false) :
    untaggedCount txs (Function.update links j (some name)) < untaggedCount txs links := by
  unfold untaggedCount
  apply filter_length_lt_of_imp _ _ ?_ _ j (by simpa using hj) (by simpa using hju) ?_
  · intro x hx
    by_cases hxe : x = j
    · exfalso
      rw [hxe, Function.update_same] at hx
      simp [strTruthy, hname] at hx
    · rwa [Function.update_noteq hxe] at hx
  · simp only [Function.update_same]
    simp [strTruthy, hname]

/-- Termination of the DFS loop: since every pass tags a previously untagged
transaction, any fuel beyond the untagged count gives the same result — the
Python `while True` loop halts after at most `untaggedCount` passes. -/
theorem dfsGo_fuel_independent (txs : List Transaction) (impPresent : ℕ → Bool)
    (name : String) (hname : name ≠ "") :
    ∀ (f g : ℕ) (links : ℕ → Option String) (cur : ℕ),
      untaggedCount txs links < f → untaggedCount txs links < g →
      dfsGo txs impPresent name f links cur = dfsGo txs impPresent name g links cur := by
  intro f
  induction f with
  | zero => intro g links cur hf _; omega
  | succ f ih =>
    intro g links cur hf hg
    cases g with
    | zero => omega
    | succ g =>
      unfold dfsGo
      by_cases hc : isClearingAccount (nthT txs cur).source_account
      · simp only [hc, Bool.not_true, Bool.false_eq_true, if_false]
        by_cases hce : ((counterCandidates txs (nthT txs cur).source_account).filter
            (fun i => !strTruthy (links i))).isEmpty
        · rw [if_pos hce, if_pos hce]
        · rw [if_neg hce, if_neg hce]
          by_cases himp : impPresent cur
          · simp only [himp, Bool.not_true, Bool.false_eq_true, if_false]
            cases hm : matchClearing (nthT txs cur)
                (((counterCandidates txs (nthT txs cur).source_account).filter
                  (fun i => !strTruthy (links i))).map (fun i => (i, nthT txs i))) with
            | none => rfl
            | some mc =>
              simp only []
              have hmc := dfsGo_matched_untagged txs impPresent name f links cur mc hm
              have hlt := untaggedCount_update_lt txs links mc.1 name hname hmc.2 hmc.1
              rw [ih g (Function.update links mc.1 (some name)) mc.1 (by omega) (by omega)]
          · simp only [himp, Bool.not_false, if_true]
      · simp only [hc, Bool.not_false, if_true]

theorem clrName_ne_empty (n : ℕ) : clrName n ≠ "" := by
  unfold clrName
  intro h
  have hlen := congrArg String.length h
  rw [String.length_append, String.length_append] at hlen
  have h4 : "clr-".length = 4 := rfl
  have h0 : "".length = 0 := rfl
  omega

/-- C3 (amended): a DFS chain that would revisit a previously-tagged
transaction terminates and never tags a transaction twice: candidates are
drawn only from the untagged pool, so (a) any transaction already carrying a
truthy link keeps it unchanged through a whole `assign_clearing_links` run,
and (b) the DFS loop is insensitive to any fuel beyond the number of untagged
transactions (each pass consumes one).  The clearing propagator emits no
warning and rewrites no account; the one-warning-plus-`:Unknown` behaviour the
claim describes lives in the separate cross-platform resolver of the CLI. -/
theorem clearing_cycle_safety (txs : List Transaction) (impPresent : ℕ → Bool)
    (links0 : ℕ → Option String) (i : ℕ) (hi : strTruthy (links0 i) = true) :
    (assign_clearing_links txs impPresent links0).1 i = links0 i ∧
    (∀ (name : String) (f g : ℕ) (links : ℕ → Option String) (cur : ℕ),
      name ≠ "" → untaggedCount txs links < f → untaggedCount txs links < g →
      dfsGo txs impPresent name f links cur = dfsGo txs impPresent name g links cur) := by
  constructor
  · unfold assign_clearing_links
    exact assignGo_preserves_links txs impPresent (List.range txs.length) (links0, 0, 0, 0) i hi
  · intro name f g links cur hname hf hg
    exact dfsGo_fuel_independent txs impPresent name hname f g links cur hf hg

/-- Counterexample to C3 as stated: on a chain that returns to its own
originating clearing account (`A → X → A`), the propagator does not halt the
chain with a warning or point any transaction at a `:Unknown` account — it
simply tags all three transactions with the same link and stops when the
untagged pool is empty; the statistics record a complete chain (`1` chain,
`3` linked, `0` unmatched) and no warning exists anywhere in the output of
`assign_clearing_links`, whose result leaves every `source_account` as it was
(none of them contains `Unknown`). -/
theorem clearing_cycle_no_warning :
    (assign_clearing_links [cycTx0, cycTx1, cycTx2] (fun _ => true) (fun _ => none)).2 =
      ⟨1, 3, 0⟩ ∧
    ((assign_clearing_links [cycTx0, cycTx1, cycTx2] (fun _ => true) (fun _ => none)).1 0 =
      some "clr-000000" ∧
     (assign_clearing_links [cycTx0, cycTx1, cycTx2] (fun _ => true) (fun _ => none)).1 1 =
      some "clr-000000" ∧
     (assign_clearing_links [cycTx0, cycTx1, cycTx2] (fun _ => true) (fun _ => none)).1 2 =
      some "clr-000000") ∧
    ([cycTx0, cycTx1, cycTx2].map (fun tx => tx.source_account) =
      ["Assets:Clearing:A", "Assets:Clearing:X", "Assets:Clearing:A"] ∧
     [cycTx0, cycTx1, cycTx2].all
      (fun tx => !(charsContains "Unknown".data tx.source_account.data)) = true) := by
  refine ⟨?_, ⟨?_, ?_, ?_⟩, ⟨?_, ?_⟩⟩ <;> decide

/-- Witness for C3 (amended) on the cycle input, with transaction `0`
pre-tagged: its link survives the run, and the DFS result is fuel-insensitive
beyond the untagged count. -/
theorem clearing_cycle_safety_witness :
    strTruthy ((fun i => if i = 0 then some "old" else none) 0) = true ∧
    (assign_clearing_links [cycTx0, cycTx1, cycTx2] (fun _ => true)
      (fun i => if i = 0 then some "old" else none)).1 0 = some "old" ∧
    dfsGo [cycTx0, cycTx1, cycTx2] (fun _ => true) "clr-000000" 5
        (fun i => if i = 0 then some "old" else none) 0 =
      dfsGo [cycTx0, cycTx1, cycTx2] (fun _ => true) "clr-000000" 4
        (fun i => if i = 0 then some "old" else none) 0 := by
  have h := clearing_cycle_safety [cycTx0, cycTx1, cycTx2] (fun _ => true)
    (fun i => if i = 0 then some "old" else none) 0 (by decide)
  exact ⟨by decide, h.1, h.2 "clr-000000" 5 4
    (fun i => if i = 0 then some "old" else none) 0 (by decide) (by decide) (by decide)⟩

/- ===================== Canonical chain lemmas ===================== -/

theorem mkChain_length (accts : List String) : (mkChain accts).length = accts.length := by
  simp [mkChain]

theorem nthT_mkChain (accts : List String) (i : ℕ) (h : i < accts.length) :
    nthT (mkChain accts) i = chainTx accts i := by
  unfold nthT mkChain
  rw [List.getD_eq_getElem _ _ (by simpa using h)]
  simp

theorem acct_clearing (accts : List String) (h3 : ∀ a ∈ accts, isClearingAccount a = true)
    (i : ℕ) (h : i < accts.length) : isClearingAccount (accts.getD i "") = true := by
  apply h3
  rw [List.getD_eq_getElem _ _ h]
  exact List.getElem_mem _

theorem clearing_ne_empty (a : String) (h : isClearingAccount a = true) : a ≠ "" := by
  intro he
  rw [he] at h
  exact absurd h (by decide)

theorem acct_getD_inj (accts : List String) (h2 : accts.Nodup) (i j : ℕ)
    (hi : i < accts.length) (hj : j < accts.length)
    (h : accts.getD i "" = accts.getD j "") : i = j := by
  rw [List.getD_eq_getElem _ _ hi, List.getD_eq_getElem _ _ hj] at h
  have hinj := List.nodup_iff_injective_get.mp h2
  have hget : accts.get ⟨i, hi⟩ = accts.get ⟨j, hj⟩ := by
    simpa [List.get_eq_getElem] using h
  exact congrArg Fin.val (hinj hget)

theorem filter_range_eq_single (p : ℕ → Bool) :
    ∀ (n x : ℕ), (∀ i < n, p i = decide (i = x)) →
      (List.range n).filter p = if x < n then [x] else [] := by
  intro n
  induction n with
  | zero => intro x _; simp
  | succ n ih =>
    intro x hp
    rw [List.range_succ, List.filter_append]
    rw [ih x (fun i hi => hp i (by omega))]
    have hpn : p n = decide (n = x) := hp n (by omega)
    by_cases hx : x < n
    · rw [if_pos hx, if_pos (by omega)]
      have : p n = false := by rw [hpn]; simp; omega
      simp [this]
    · by_cases hxn : x = n
      · rw [if_neg hx, if_pos (by omega)]
        have : p n = true := by rw [hpn]; simp [hxn]
        simp [this, hxn]
      · rw [if_neg hx, if_neg (by omega)]
        have : p n = false := by rw [hpn]; simp; omega
        simp [this]

theorem counterCandidates_chain (accts : List String) (h2 : accts.Nodup)
    (h3 : ∀ a ∈ accts, isClearingAccount a = true) (k : ℕ) (hk : k < accts.length) :
    counterCandidates (mkChain accts) (accts.getD k "") =
      if k + 1 < accts.length then [k + 1] else [] := by
  unfold counterCandidates
  rw [mkChain_length]
  apply filter_range_eq_single
  intro i hi
  rw [nthT_mkChain accts i hi]
  have hcounter : (chainTx accts i).counter_account =
      if i = 0 then none else some (accts.getD (i - 1) "") := rfl
  rw [hcounter]
  by_cases hi0 : i = 0
  · rw [if_pos hi0]
    have h0 : ¬(i = k + 1) := by omega
    rw [decide_eq_false h0]
    rfl
  · rw [if_neg hi0]
    have hprev : i - 1 < accts.length := by omega
    have hcl := acct_clearing accts h3 (i - 1) hprev
    have hne := clearing_ne_empty _ hcl
    have hbeq : (accts.getD (i - 1) "" == "") = false := beq_eq_false_iff_ne.mpr hne
    rw [Option.getD_some]
    have hst : strTruthy (some (accts.getD (i - 1) "")) = true := by
      show (!(accts.getD (i - 1) "" == "")) = true
      rw [hbeq]
      rfl
    rw [hst, hcl]
    simp only [Bool.true_and]
    by_cases heq : accts.getD (i - 1) "" = accts.getD k ""
    · have hik : i = k + 1 := by
        have := acct_getD_inj accts h2 (i - 1) k hprev hk heq
        omega
      rw [beq_iff_eq.mpr heq, decide_eq_true hik]
    · have hik : ¬(i = k + 1) := by
        intro he
        apply heq
        have hik2 : i - 1 = k := by omega
        rw [hik2]
      rw [beq_eq_false_iff_ne.mpr heq, decide_eq_false hik]

theorem refsOf_chainTx (accts : List String) (i : ℕ) : refsOf (chainTx accts i) = [] := rfl

theorem amountsMatch_chain (accts : List String) (i j : ℕ) :
    amountsMatch (chainTx accts i) (chainTx accts j) = true := by
  unfold amountsMatch chainTx
  simp

theorem matchClearing_chain (accts : List String) (k j : ℕ) :
    matchClearing (chainTx accts k) [(j, chainTx accts j)] =
      some (j, chainTx accts j) := by
  unfold matchClearing
  have href : refsIntersect (chainTx accts k) (chainTx accts j) = false := by
    unfold refsIntersect
    rw [refsOf_chainTx]
    rfl
  have hfind : ([(j, chainTx accts j)].find?
      (fun c => refsIntersect (chainTx accts k) c.2)) = none := by
    simp [List.find?, href]
  rw [hfind]
  have hsort : List.insertionSort
      (fun a b => |(chainTx accts k).date - a.2.date| ≤ |(chainTx accts k).date - b.2.date|)
      [(j, chainTx accts j)] = [(j, chainTx accts j)] := by
    simp
  rw [hsort]
  have hdate : (chainTx accts k).date = 0 := rfl
  have hpred : (decide (|(chainTx accts k).date - (chainTx accts j).date| ≤
      clearingDateTolerance) && amountsMatch (chainTx accts k) (chainTx accts j)) = true := by
    rw [amountsMatch_chain, hdate]
    have : (chainTx accts j).date = 0 := rfl
    rw [this]
    decide
  simp [List.find?, hpred]

theorem update_linksUpTo (k : ℕ) :
    Function.update (linksUpTo k) (k + 1) (some "clr-000000") = linksUpTo (k + 1) := by
  funext i
  by_cases he : i = k + 1
  · rw [he, Function.update_same]
    simp [linksUpTo]
  · rw [Function.update_noteq he]
    unfold linksUpTo
    by_cases hle : i ≤ k
    · rw [if_pos hle, if_pos (by omega)]
    · rw [if_neg hle, if_neg (by omega)]

theorem update_none_linksUpTo :
    Function.update (fun _ => (none : Option String)) 0 (some "clr-000000") = linksUpTo 0 := by
  funext i
  by_cases he : i = 0
  · rw [he, Function.update_same]
    simp [linksUpTo]
  · rw [Function.update_noteq he]
    unfold linksUpTo
    rw [if_neg (by omega)]

theorem clrName_zero : clrName 0 = "clr-000000" := by decide

theorem isTerminal_chain_zero (accts : List String)
    (h3 : ∀ a ∈ accts, isClearingAccount a = true) (h0 : 0 < accts.length) :
    isTerminalExpense (chainTx accts 0) = true := by
  unfold isTerminalExpense chainTx
  simp only []
  rw [acct_clearing accts h3 0 h0]
  simp [strTruthy]

theorem isTerminal_chain_pos (accts : List String)
    (h3 : ∀ a ∈ accts, isClearingAccount a = true) (i : ℕ) (h1 : 1 ≤ i)
    (hi : i < accts.length) : isTerminalExpense (chainTx accts i) = false := by
  have hprev : i - 1 < accts.length := by omega
  have hcl := acct_clearing accts h3 (i - 1) hprev
  have hne := clearing_ne_empty _ hcl
  have hbeq : (accts.getD (i - 1) "" == "") = false := beq_eq_false_iff_ne.mpr hne
  unfold isTerminalExpense
  have hcnt : (chainTx accts i).counter_account = some (accts.getD (i - 1) "") := by
    show (if i = 0 then none else some (accts.getD (i - 1) "")) = _
    rw [if_neg (by omega)]
  rw [hcnt, Option.getD_some]
  have hst : strTruthy (some (accts.getD (i - 1) "")) = true := by
    show (!(accts.getD (i - 1) "" == "")) = true
    rw [hbeq]
    rfl
  rw [hst, hcl]
  simp only [Bool.true_and, Bool.not_true, Bool.and_false]

theorem dfs_chain (accts : List String) (h2 : accts.Nodup)
    (h3 : ∀ a ∈ accts, isClearingAccount a = true) :
    ∀ (fuel k : ℕ), k < accts.length → accts.length - k ≤ fuel →
      dfsGo (mkChain accts) (fun _ => true) "clr-000000" fuel (linksUpTo k) k =
        (linksUpTo (accts.length - 1), accts.length - 1 - k) := by
  intro fuel
  induction fuel with
  | zero => intro k hk hf; omega
  | succ fuel ih =>
    intro k hk hf
    unfold dfsGo
    rw [nthT_mkChain accts k hk]
    have hsrc : (chainTx accts k).source_account = accts.getD k "" := rfl
    rw [hsrc, acct_clearing accts h3 k hk]
    simp only [Bool.not_true, Bool.false_eq_true, if_false]
    rw [counterCandidates_chain accts h2 h3 k hk]
    by_cases hk1 : k + 1 < accts.length
    · rw [if_pos hk1]
      have hfil : ([k + 1].filter (fun i => !strTruthy (linksUpTo k i))) = [k + 1] := by
        have : strTruthy (linksUpTo k (k + 1)) = false := by
          unfold linksUpTo
          rw [if_neg (by omega)]
          rfl
        simp [List.filter, this]
      rw [hfil]
      have hmap : ([k + 1].map (fun i => (i, nthT (mkChain accts) i))) =
          [(k + 1, chainTx accts (k + 1))] := by
        rw [List.map_cons, List.map_nil, nthT_mkChain accts (k + 1) hk1]
      simp only [List.isEmpty_cons, Bool.false_eq_true, if_false, Bool.not_true]
      rw [hmap, matchClearing_chain accts k (k + 1)]
      simp only []
      rw [update_linksUpTo k]
      rw [ih (k + 1) hk1 (by omega)]
      have : accts.length - 1 - (k + 1) + 1 = accts.length - 1 - k := by omega
      rw [this]
    · rw [if_neg hk1]
      have hke : k = accts.length - 1 := by omega
      rw [hke]
      simp only [List.filter_nil, List.isEmpty_nil, if_true, Nat.sub_self]

theorem assignGo_skip (txs : List Transaction) (imp : ℕ → Bool) :
    ∀ (l : List ℕ) (st : (ℕ → Option String) × ℕ × ℕ × ℕ),
      (∀ i ∈ l, isTerminalExpense (nthT txs i) = false) →
      assignGo txs imp l st = st := by
  intro l
  induction l with
  | nil => intro st _; rfl
  | cons i rest ih =>
    intro st h
    obtain ⟨links, counter, linked, unmatched⟩ := st
    unfold assignGo
    rw [h i (List.mem_cons_self _ _)]
    simp only [Bool.not_false, if_true]
    exact ih _ (fun x hx => h x (List.mem_cons_of_mem _ hx))

/-- C2: on every complete chain of pairwise-distinct clearing accounts (one
terminal expense plus `N − 1` bridges, each hop's `counter_account` equal to
the previous hop's clearing `source_account`, each hop selectable by the
default clearing matcher), `assign_clearing_links` gives all `N` transactions
the identical link `clr-000000` and reports `total_chains = 1`,
`total_linked = N`; `unmatched_terminal` is `1` exactly in the degenerate
`N = 1` case where the seed's very first upstream lookup finds nothing, and
in general the DFS tags nothing (the count `assign_clearing_links` turns into
an `unmatched_terminal` increment) precisely when its very first pass yields
no match — the count with any fuel is zero iff the count with fuel `1` (a
single pass) is zero. -/
theorem clearing_chain_links (accts : List String) (h1 : accts ≠ [])
    (h2 : accts.Nodup) (h3 : ∀ a ∈ accts, isClearingAccount a = true) :
    ((assign_clearing_links (mkChain accts) (fun _ => true) (fun _ => none)).2 =
      ⟨1, accts.length, if accts.length = 1 then 1 else 0⟩ ∧
     ∀ i < accts.length,
       (assign_clearing_links (mkChain accts) (fun _ => true) (fun _ => none)).1 i =
         some "clr-000000") ∧
    (∀ (txs : List Transaction) (imp : ℕ → Bool) (name : String) (fuel : ℕ)
       (links : ℕ → Option String) (cur : ℕ),
       ((dfsGo txs imp name (fuel + 1) links cur).2 = 0 ↔
        (dfsGo txs imp name 1 links cur).2 = 0)) := by
  have hN : 0 < accts.length := List.length_pos.mpr h1
  have hrun : assignGo (mkChain accts) (fun _ => true) (List.range (mkChain accts).length)
      ((fun _ => none), 0, 0, 0) =
      (linksUpTo (accts.length - 1), 1, accts.length,
        if accts.length = 1 then 1 else 0) := by
    obtain ⟨M, hM⟩ : ∃ M, accts.length = M + 1 := ⟨accts.length - 1, by omega⟩
    rw [mkChain_length, hM, List.range_succ_eq_map]
    unfold assignGo
    rw [nthT_mkChain accts 0 (by omega), isTerminal_chain_zero accts h3 (by omega)]
    simp only [Bool.not_true, Bool.false_eq_true, if_false]
    have hstr : strTruthy ((fun _ => (none : Option String)) 0) = false := rfl
    rw [hstr]
    simp only [Bool.false_eq_true, if_false]
    rw [clrName_zero, update_none_linksUpTo, mkChain_length]
    have hdfs := dfs_chain accts h2 h3 (accts.length + 1) 0 (by omega) (by omega)
    rw [hdfs, hM]
    simp only []
    rw [assignGo_skip]
    · have e1 : 0 + 1 + (M + 1 - 1 - 0) = M + 1 := by omega
      have e2 : (0 + if M + 1 - 1 - 0 = 0 then 1 else 0) =
          if M + 1 = 1 then 1 else 0 := by
        by_cases hM0 : M = 0 <;> simp [hM0]
      rw [e1, e2]
    · intro i hi
      rw [List.mem_map] at hi
      obtain ⟨j, hj, rfl⟩ := hi
      rw [List.mem_range] at hj
      rw [nthT_mkChain accts (Nat.succ j) (by omega)]
      exact isTerminal_chain_pos accts h3 (Nat.succ j) (by omega) (by omega)
  constructor
  · constructor
    · unfold assign_clearing_links
      rw [hrun]
    · intro i hi
      unfold assign_clearing_links
      rw [hrun]
      simp only [linksUpTo]
      rw [if_pos (by omega)]
  · intro txs imp name fuel links cur
    unfold dfsGo
    by_cases hc : isClearingAccount (nthT txs cur).source_account
    · simp only [hc, Bool.not_true, Bool.false_eq_true, if_false]
      by_cases hce : ((counterCandidates txs (nthT txs cur).source_account).filter
          (fun i => !strTruthy (links i))).isEmpty
      · rw [if_pos hce, if_pos hce]
      · rw [if_neg hce, if_neg hce]
        by_cases himp : imp cur
        · simp only [himp, Bool.not_true, Bool.false_eq_true, if_false]
          cases hm : matchClearing (nthT txs cur)
              (((counterCandidates txs (nthT txs cur).source_account).filter
                (fun i => !strTruthy (links i))).map (fun i => (i, nthT txs i))) with
          | none => rfl
          | some mc => simp
        · simp only [himp, Bool.not_false, if_true]
    · simp only [hc, Bool.not_false, if_true]

/-- Witness for C2 on a concrete three-hop chain of distinct clearing accounts. -/
theorem clearing_chain_links_witness :
    (["Assets:Clearing:JD", "Assets:Clearing:JD:WX", "Assets:Clearing:WX:CC:CMB"] ≠
      ([] : List String)) ∧
    ((assign_clearing_links
        (mkChain ["Assets:Clearing:JD", "Assets:Clearing:JD:WX", "Assets:Clearing:WX:CC:CMB"])
        (fun _ => true) (fun _ => none)).2 = ⟨1, 3, 0⟩ ∧
     ∀ i < 3,
       (assign_clearing_links
          (mkChain ["Assets:Clearing:JD", "Assets:Clearing:JD:WX",
            "Assets:Clearing:WX:CC:CMB"])
          (fun _ => true) (fun _ => none)).1 i = some "clr-000000") := by
  have h := clearing_chain_links
    ["Assets:Clearing:JD", "Assets:Clearing:JD:WX", "Assets:Clearing:WX:CC:CMB"]
    (by decide) (by decide) (by decide)
  exact ⟨by decide, h.1⟩

end Preciouss
